import Mathlib

/-!
# P2P-Messenger: the chat room relay (`chat.go`)

A shallow embedding of `chat.go` and of the library calls it makes.

* A Go `string` or `[]byte` is the list of its bytes (`GoString`), each a
  natural number below 256. A Go string need not be valid UTF-8.
* `encoding/json` and `unicode/utf8` are Go's standard library and not among the
  sources of the repository. They are embedded for the one type `chat.go` uses
  them at, the envelope `chatmessage` of three string fields: `Marshal` writes
  the object, `Unmarshal` checks the input as a whole and then fills the struct.
* The two goroutines `PubLoop` and `SubLoop` are functions from the list of
  events their blocking calls meet to the list of effects they perform.
* `JoinChatRoom` and `Exit` are functions over an explicit world (the host, the
  channels and scopes made, the goroutines started) and an explicit record of
  what the transport answers.
* Recursion that follows the input by more than one byte at a time carries a
  bound `fuel`; every caller passes a bound that the length of the input makes
  large enough, and the results do not depend on it (`stringBody_fuel`,
  `unquoteLoop_fuel`, `scanValue_fuel`).
-/

namespace PeerChat

/-! ## Go strings -/

/-- A Go `string` or `[]byte`: its bytes in order. -/
abbrev GoString := List Nat

/-- The bytes of an ASCII literal written in the source. -/
def lit (s : String) : GoString := s.data.map Char.toNat

/-! ## `unicode/utf8` -/

/-- Constant `utf8.RuneError`, U+FFFD. -/
def RuneError : Nat := 0xFFFD

/-- Constant `utf8.MaxRune`. -/
def MaxRune : Nat := 0x10FFFF

/-- Table `utf8.first`: what the first byte of a sequence says about it.
`0xF0` is ASCII, `0xF1` is an invalid first byte; otherwise the low three bits
are the size and the high four bits index `acceptRanges`. -/
def first (b : Nat) : Nat :=
  if b < 0x80 then 0xF0
  else if b < 0xC2 then 0xF1
  else if b < 0xE0 then 0x02
  else if b = 0xE0 then 0x13
  else if b < 0xED then 0x03
  else if b = 0xED then 0x23
  else if b < 0xF0 then 0x03
  else if b = 0xF0 then 0x34
  else if b < 0xF4 then 0x04
  else if b = 0xF4 then 0x44
  else 0xF1

/-- Table `utf8.acceptRanges`: the range of a valid second byte. -/
def acceptRanges (i : Nat) : Nat × Nat :=
  match i with
  | 0 => (0x80, 0xBF)
  | 1 => (0xA0, 0xBF)
  | 2 => (0x80, 0x9F)
  | 3 => (0x90, 0xBF)
  | 4 => (0x80, 0x8F)
  | _ => (0, 0)

/-- Function `utf8.DecodeRune` (and `DecodeRuneInString`): the first rune of
`s` and its width in bytes; `(RuneError, 1)` for an invalid encoding and
`(RuneError, 0)` for the empty input. -/
def DecodeRune (s : GoString) : Nat × Nat :=
  match s with
  | [] => (RuneError, 0)
  | s0 :: t =>
    let x := first s0
    if x ≥ 0xF0 then
      (if x % 2 = 1 then RuneError else s0, 1)
    else
      let sz := x &&& 7
      let accept := acceptRanges (x >>> 4)
      if s.length < sz then (RuneError, 1)
      else
        match t with
        | [] => (RuneError, 1)
        | s1 :: t1 =>
          if s1 < accept.1 ∨ accept.2 < s1 then (RuneError, 1)
          else if sz ≤ 2 then ((s0 &&& 0x1F) <<< 6 ||| (s1 &&& 0x3F), 2)
          else
            match t1 with
            | [] => (RuneError, 1)
            | s2 :: t2 =>
              if s2 < 0x80 ∨ 0xBF < s2 then (RuneError, 1)
              else if sz ≤ 3 then
                ((s0 &&& 0x0F) <<< 12 ||| (s1 &&& 0x3F) <<< 6 ||| (s2 &&& 0x3F), 3)
              else
                match t2 with
                | [] => (RuneError, 1)
                | s3 :: _ =>
                  if s3 < 0x80 ∨ 0xBF < s3 then (RuneError, 1)
                  else
                    ((s0 &&& 0x07) <<< 18 ||| (s1 &&& 0x3F) <<< 12
                      ||| (s2 &&& 0x3F) <<< 6 ||| (s3 &&& 0x3F), 4)

/-- Conversion `byte(r)`: the low eight bits. -/
def byte (r : Nat) : Nat := r % 256

/-- The three-byte case of `utf8.EncodeRune`. -/
def encode3 (r : Nat) : GoString :=
  [0xE0 ||| byte (r >>> 12), 0x80 ||| (byte (r >>> 6) &&& 0x3F), 0x80 ||| (byte r &&& 0x3F)]

/-- Function `utf8.EncodeRune`: the UTF-8 encoding of a rune; a surrogate or a
value past `MaxRune` is encoded as `RuneError`. -/
def EncodeRune (r : Nat) : GoString :=
  if r ≤ 0x7F then [byte r]
  else if r ≤ 0x7FF then [0xC0 ||| byte (r >>> 6), 0x80 ||| (byte r &&& 0x3F)]
  else if r > MaxRune ∨ (0xD800 ≤ r ∧ r ≤ 0xDFFF) then encode3 RuneError
  else if r ≤ 0xFFFF then encode3 r
  else
    [0xF0 ||| byte (r >>> 18), 0x80 ||| (byte (r >>> 12) &&& 0x3F),
      0x80 ||| (byte (r >>> 6) &&& 0x3F), 0x80 ||| (byte r &&& 0x3F)]

/-- Go strings that `utf8.ValidString` accepts: every position decodes to a
rune without error. The bound `fuel` is the number of runes still allowed. -/
def validAux : Nat → GoString → Bool
  | 0, s => s.isEmpty
  | _, [] => true
  | fuel + 1, b :: rest =>
    let d := DecodeRune (b :: rest)
    if d.1 = RuneError ∧ d.2 = 1 then false
    else validAux fuel ((b :: rest).drop d.2)

/-- Function `utf8.ValidString`. -/
def ValidString (s : GoString) : Bool := validAux s.length s

/-! ## `encoding/json`: writing -/

/-- The wire envelope, `type chatmessage struct` with the JSON field names
`message`, `senderid`, `sendername`. -/
structure chatmessage where
  Message : GoString
  SenderID : GoString
  SenderName : GoString
deriving DecidableEq, Repr

/-- Errors returned by `json.Marshal` and `json.Unmarshal`. -/
inductive JsonError
  | invalidSyntax
  | unmarshalType (value : String)
  | outOfSync
deriving DecidableEq, Repr

/-- Constant `hex = "0123456789abcdef"` of `encoding/json`, indexed. -/
def hex (i : Nat) : Nat := if i < 10 then 0x30 + i else 0x61 + (i - 10)

/-- Table `htmlSafeSet`: the ASCII bytes written without escaping, that is
space to DEL except the double quote, `&`, `<`, `>` and the backslash. -/
def htmlSafeSet (b : Nat) : Bool :=
  decide (0x20 ≤ b) && decide (b < 0x80) && !(b = 0x22 || b = 0x26 || b = 0x3C || b = 0x3E
    || b = 0x5C)

/-- The escape `encodeState.string` writes for an ASCII byte that is not in
`htmlSafeSet`: a backslash before the backslash and the double quote, the short
forms for line feed, carriage return and tab, six bytes `\u00XX` otherwise
(Go 1.22 and later also write the short forms of backspace and form feed;
both spellings are read back as the same byte). -/
def escapeByte (b : Nat) : GoString :=
  if b = 0x5C ∨ b = 0x22 then [0x5C, b]
  else if b = 0x0A then [0x5C, 0x6E]
  else if b = 0x0D then [0x5C, 0x72]
  else if b = 0x09 then [0x5C, 0x74]
  else [0x5C, 0x75, 0x30, 0x30, hex (b >>> 4), hex (b &&& 0xF)]

/-- The loop of `encodeState.string` (HTML escaping on), without the two
quotes. ASCII bytes are copied or escaped; an invalid UTF-8 byte is written as
the six bytes \ufffd; U+2028 and U+2029 are written as \u2028 and \u2029;
every other rune is copied. `fuel` bounds the number of iterations. -/
def stringBody : Nat → GoString → GoString
  | 0, _ => []
  | _, [] => []
  | fuel + 1, b :: rest =>
    if b < 0x80 then
      (if htmlSafeSet b then [b] else escapeByte b) ++ stringBody fuel rest
    else
      let d := DecodeRune (b :: rest)
      if d.1 = RuneError ∧ d.2 = 1 then
        [0x5C, 0x75, 0x66, 0x66, 0x66, 0x64] ++ stringBody fuel rest
      else if d.1 = 0x2028 ∨ d.1 = 0x2029 then
        [0x5C, 0x75, 0x32, 0x30, 0x32, hex (d.1 &&& 0xF)]
          ++ stringBody fuel ((b :: rest).drop d.2)
      else
        (b :: rest).take d.2 ++ stringBody fuel ((b :: rest).drop d.2)

/-- Method `encodeState.string`: a Go string as a JSON string literal. -/
def encodeString (s : GoString) : GoString :=
  [0x22] ++ stringBody s.length s ++ [0x22]

/-- Modelled from the spec: the serializer of the wire envelope, `json.Marshal`
of Go's standard library, which is not among the sources. The spec fixes the
envelope as a UTF-8 text object with exactly the three fields `message`,
`senderid`, `sendername`; this is `json.Marshal` at type `chatmessage`: the
object with the three fields in declaration order, each value written by
`encodeState.string`. It returns no error at this type. -/
def Marshal (m : chatmessage) : Except JsonError GoString :=
  .ok (lit "\x7b\"message\":" ++ encodeString m.Message
    ++ lit ",\"senderid\":" ++ encodeString m.SenderID
    ++ lit ",\"sendername\":" ++ encodeString m.SenderName ++ lit "\x7d")

/-! ## `encoding/json`: reading -/

/-- Function `isSpace` of the scanner. -/
def isSpace (c : Nat) : Bool := c = 0x20 || c = 0x09 || c = 0x0D || c = 0x0A

/-- Skips JSON white space. -/
def skipSpace : GoString → GoString
  | [] => []
  | c :: rest => if isSpace c then skipSpace rest else c :: rest

/-- A hexadecimal digit, as the scanner accepts after `\u`. -/
def isHex (c : Nat) : Bool :=
  (decide (0x30 ≤ c) && decide (c ≤ 0x39)) || (decide (0x61 ≤ c) && decide (c ≤ 0x66))
    || (decide (0x41 ≤ c) && decide (c ≤ 0x46))

/-- A decimal digit. -/
def isDigit (c : Nat) : Bool := decide (0x30 ≤ c) && decide (c ≤ 0x39)

/-- The scanner inside a string literal (`stateInString`, `stateInStringEsc`,
`stateInStringEscU...`), entered after the opening quote: the bytes of the
literal up to its closing quote, and the input after that quote. A control
character, an unknown escape or the end of input is a syntax error. -/
def scanString : GoString → Option (GoString × GoString)
  | [] => none
  | c :: rest =>
    if c = 0x22 then some ([], rest)
    else if c = 0x5C then
      match rest with
      | [] => none
      | e :: rest1 =>
        if e = 0x62 ∨ e = 0x66 ∨ e = 0x6E ∨ e = 0x72 ∨ e = 0x74 ∨ e = 0x5C ∨ e = 0x2F
            ∨ e = 0x22 then
          (scanString rest1).map fun r => (c :: e :: r.1, r.2)
        else if e = 0x75 then
          match rest1 with
          | h1 :: h2 :: h3 :: h4 :: rest2 =>
            if isHex h1 ∧ isHex h2 ∧ isHex h3 ∧ isHex h4 then
              (scanString rest2).map fun r => (c :: e :: h1 :: h2 :: h3 :: h4 :: r.1, r.2)
            else none
          | _ => none
        else none
    else if c < 0x20 then none
    else (scanString rest).map fun r => (c :: r.1, r.2)

/-- Skips decimal digits. -/
def skipDigits : GoString → GoString
  | [] => []
  | c :: rest => if isDigit c then skipDigits rest else c :: rest

/-- The scanner after the integer part of a number (`state0`, `state1`,
`stateDot`, `stateE`, ...): an optional fraction and an optional exponent, each
with at least one digit. Returns the input after the number. -/
def scanFracExp (s : GoString) : Option GoString :=
  let afterFrac : Option GoString :=
    match s with
    | 0x2E :: d :: rest => if isDigit d then some (skipDigits rest) else none
    | 0x2E :: [] => none
    | _ => some s
  afterFrac.bind fun s1 =>
    match s1 with
    | e :: rest =>
      if e = 0x65 ∨ e = 0x45 then
        let rest1 :=
          match rest with
          | sign :: r => if sign = 0x2B ∨ sign = 0x2D then r else rest
          | [] => rest
        match rest1 with
        | d :: r => if isDigit d then some (skipDigits r) else none
        | [] => none
      else some s1
    | [] => some s1

/-- The scanner over a number literal (`stateNeg`, `state0`, `state1`):
optional minus, then `0` or a digit string that does not start with `0`, then
fraction and exponent. Returns the input after the number. -/
def scanNumber (s : GoString) : Option GoString :=
  let s1 := match s with
    | 0x2D :: r => r
    | _ => s
  match s1 with
  | d :: rest =>
    if d = 0x30 then scanFracExp rest
    else if isDigit d then scanFracExp (skipDigits rest)
    else none
  | [] => none

/-- The kind of a member's value, with the bytes of the literal when it is a
string (between the quotes, still escaped). -/
inductive Kind
  | null
  | bool
  | number
  | string (body : GoString)
  | array
  | object
deriving DecidableEq, Repr

/-- A JSON value as the decoder of `chatmessage` looks at it: for an object the
members in order, each with its key (bytes of the literal) and value kind. -/
inductive Value
  | null
  | bool
  | number
  | string (body : GoString)
  | array
  | object (members : List (GoString × Kind))
deriving DecidableEq, Repr

/-- The kind of a value. -/
def Value.kind : Value → Kind
  | .null => .null
  | .bool => .bool
  | .number => .number
  | .string b => .string b
  | .array => .array
  | .object _ => .object

/-- The scanner after the first letter of `true`, `false` or `null` (`stateT`,
`stateTr`, ...): the remaining letters `word` must follow. Returns the input
after them. -/
def scanLiteral : GoString → GoString → Option GoString
  | [], s => some s
  | _ :: _, [] => none
  | w :: word, c :: rest => if c = w then scanLiteral word rest else none

/-- Constant `maxNestingDepth` of the scanner. -/
def maxNestingDepth : Nat := 10000

mutual

/-- The scanner at the start of a value (`stateBeginValue`, white space already
skipped): the value and the input after it, `none` for a syntax error.
`depth` is the length of the scanner's parse stack. -/
def scanValue : Nat → Nat → GoString → Option (Value × GoString)
  | 0, _, _ => none
  | _, _, [] => none
  | fuel + 1, depth, c :: rest =>
    if c = 0x7B then
      if depth ≥ maxNestingDepth then none
      else
        match skipSpace rest with
        | 0x7D :: r => some (.object [], r)
        | r => (scanMembers fuel (depth + 1) r).map fun m => (.object m.1, m.2)
    else if c = 0x5B then
      if depth ≥ maxNestingDepth then none
      else
        match skipSpace rest with
        | 0x5D :: r => some (.array, r)
        | r => (scanElements fuel (depth + 1) r).map fun r1 => (.array, r1)
    else if c = 0x22 then
      (scanString rest).map fun r => (.string r.1, r.2)
    else if c = 0x2D ∨ isDigit c then
      (scanNumber (c :: rest)).map fun r => (.number, r)
    else if c = 0x74 then (scanLiteral [0x72, 0x75, 0x65] rest).map fun r => (.bool, r)
    else if c = 0x66 then (scanLiteral [0x61, 0x6C, 0x73, 0x65] rest).map fun r => (.bool, r)
    else if c = 0x6E then (scanLiteral [0x75, 0x6C, 0x6C] rest).map fun r => (.null, r)
    else none

/-- The scanner inside an array, at the start of an element: elements
separated by commas up to the closing bracket. -/
def scanElements : Nat → Nat → GoString → Option GoString
  | 0, _, _ => none
  | fuel + 1, depth, s =>
    match scanValue fuel depth s with
    | none => none
    | some (_, r) =>
      match skipSpace r with
      | 0x2C :: r1 => scanElements fuel depth (skipSpace r1)
      | 0x5D :: r1 => some r1
      | _ => none

/-- The scanner inside an object, at the start of a key: `"key" : value`
members separated by commas up to the closing brace. -/
def scanMembers : Nat → Nat → GoString → Option (List (GoString × Kind) × GoString)
  | 0, _, _ => none
  | fuel + 1, depth, s =>
    match s with
    | 0x22 :: r =>
      match scanString r with
      | none => none
      | some (key, r1) =>
        match skipSpace r1 with
        | 0x3A :: r2 =>
          match scanValue fuel depth (skipSpace r2) with
          | none => none
          | some (v, r3) =>
            match skipSpace r3 with
            | 0x2C :: r4 =>
              (scanMembers fuel depth (skipSpace r4)).map fun m => ((key, v.kind) :: m.1, m.2)
            | 0x7D :: r4 => some ([(key, v.kind)], r4)
            | _ => none
        | _ => none
    | _ => none

end

/-- Function `checkValid` together with the value it scanned: the input is one
JSON value between optional white space, and nothing else. The bound given to
the scanner is never used up (`scanValue_fuel`). -/
def scanTop (data : GoString) : Option Value :=
  match scanValue (2 * data.length + 1) 0 (skipSpace data) with
  | none => none
  | some (v, r) => if skipSpace r = [] then some v else none

/-- The value of a hexadecimal digit, as `getu4` reads it. -/
def hexVal (c : Nat) : Option Nat :=
  if 0x30 ≤ c ∧ c ≤ 0x39 then some (c - 0x30)
  else if 0x61 ≤ c ∧ c ≤ 0x66 then some (c - 0x61 + 10)
  else if 0x41 ≤ c ∧ c ≤ 0x46 then some (c - 0x41 + 10)
  else none

/-- Function `getu4`: the rune of a six-byte escape `\uXXXX` at the start of
`s`; `none` where Go returns -1. -/
def getu4 (s : GoString) : Option Nat :=
  match s with
  | 0x5C :: 0x75 :: a :: b :: c :: d :: _ =>
    match hexVal a, hexVal b, hexVal c, hexVal d with
    | some a, some b, some c, some d => some (((a * 16 + b) * 16 + c) * 16 + d)
    | _, _, _, _ => none
  | _ => none

/-- Function `utf16.DecodeRune`: the rune of a surrogate pair, U+FFFD when the
two values are not a valid pair. -/
def utf16DecodeRune (r1 r2 : Nat) : Nat :=
  if 0xD800 ≤ r1 ∧ r1 < 0xDC00 ∧ 0xDC00 ≤ r2 ∧ r2 < 0xE000 then
    ((r1 - 0xD800) <<< 10 ||| (r2 - 0xDC00)) + 0x10000
  else 0xFFFD

/-- The first loop of `unquoteBytes`: the number of leading bytes that need no
unquoting (no backslash, quote or control character, no invalid UTF-8). -/
def cleanPrefix : Nat → GoString → Nat
  | 0, _ => 0
  | _, [] => 0
  | fuel + 1, c :: rest =>
    if c = 0x5C ∨ c = 0x22 ∨ c < 0x20 then 0
    else if c < 0x80 then 1 + cleanPrefix fuel rest
    else
      let d := DecodeRune (c :: rest)
      if d.1 = RuneError ∧ d.2 = 1 then 0
      else d.2 + cleanPrefix fuel ((c :: rest).drop d.2)

/-- The one-letter escapes of `unquoteBytes`: the byte written for the letter
after the backslash; `none` for a letter that is no such escape. -/
def unquoteEscape (e : Nat) : Option Nat :=
  if e = 0x22 ∨ e = 0x5C ∨ e = 0x2F ∨ e = 0x27 then some e
  else if e = 0x62 then some 0x08
  else if e = 0x66 then some 0x0C
  else if e = 0x6E then some 0x0A
  else if e = 0x72 then some 0x0D
  else if e = 0x74 then some 0x09
  else none

/-- Case `'u'` of `unquoteBytes`, at an input `s` that starts with the
backslash: the UTF-8 encoding of the rune of the escape, and the input after
it. A surrogate is joined with a second escape that completes the pair, and
is U+FFFD without one. -/
def unquoteU (s : GoString) : Option (GoString × GoString) :=
  match getu4 s with
  | none => none
  | some rr =>
    let r6 := s.drop 6
    if 0xD800 ≤ rr ∧ rr < 0xE000 then
      let dec :=
        match getu4 r6 with
        | some rr1 => utf16DecodeRune rr rr1
        | none => 0xFFFD
      if dec ≠ 0xFFFD then some (EncodeRune dec, r6.drop 6)
      else some (EncodeRune 0xFFFD, r6)
    else some (EncodeRune rr, r6)

/-- One round of the second loop of `unquoteBytes` at the input `c :: rest`:
the bytes it writes and the input it leaves. An escape is replaced by the bytes
it stands for, an ASCII byte is copied, every other rune is decoded and
encoded again, which turns an invalid byte into U+FFFD. `none` where Go
returns `ok == false`. -/
def unquoteStep (c : Nat) (rest : GoString) : Option (GoString × GoString) :=
  if c = 0x5C then
    match rest with
    | [] => none
    | e :: rest1 =>
      if e = 0x75 then unquoteU (c :: rest)
      else (unquoteEscape e).map fun b => ([b], rest1)
  else if c = 0x22 ∨ c < 0x20 then none
  else if c < 0x80 then some ([c], rest)
  else
    let d := DecodeRune (c :: rest)
    some (EncodeRune d.1, (c :: rest).drop d.2)

/-- The second loop of `unquoteBytes`: round after round to the end of the
input. `fuel` bounds the number of rounds. -/
def unquoteLoop : Nat → GoString → Option GoString
  | _, [] => some []
  | 0, _ :: _ => none
  | fuel + 1, c :: rest =>
    match unquoteStep c rest with
    | none => none
    | some (w, r) => (unquoteLoop fuel r).map fun t => w ++ t

/-- Function `unquoteBytes`, given the bytes between the two quotes of a
literal: the string the literal stands for. -/
def unquoteBytes (body : GoString) : Option GoString :=
  let r := cleanPrefix body.length body
  if r = body.length then some body
  else (unquoteLoop body.length (body.drop r)).map fun t => body.take r ++ t

/-- Function `equalFoldRight`: `t` equals the ASCII name `s` up to letter case,
where U+017F also matches `s` and U+212A also matches `k`. It is the folding
function `foldFunc` picks for a name of ASCII letters that has an `s` or a `k`,
as all three field names of `chatmessage` do. -/
def equalFoldRight : GoString → GoString → Bool
  | [], t => t.isEmpty
  | _ :: _, [] => false
  | sb :: s, tb :: t =>
    if tb < 0x80 then
      if sb ≠ tb then
        let sbUpper := sb &&& 0xDF
        if 0x41 ≤ sbUpper ∧ sbUpper ≤ 0x5A then
          if sbUpper ≠ tb &&& 0xDF then false else equalFoldRight s t
        else false
      else equalFoldRight s t
    else
      let d := DecodeRune (tb :: t)
      if sb = 0x73 ∨ sb = 0x53 then
        if d.1 ≠ 0x17F then false else equalFoldRight s ((tb :: t).drop d.2)
      else if sb = 0x6B ∨ sb = 0x4B then
        if d.1 ≠ 0x212A then false else equalFoldRight s ((tb :: t).drop d.2)
      else false

/-- The fields of `chatmessage`. -/
inductive Field
  | Message
  | SenderID
  | SenderName
deriving DecidableEq, Repr

/-- The JSON names of the fields, from the struct tags, in declaration order. -/
def fieldNames : List (GoString × Field) :=
  [(lit "message", .Message), (lit "senderid", .SenderID), (lit "sendername", .SenderName)]

/-- The field a key of the object names: the one with exactly that name, else
the first whose name equals the key under folding. -/
def findField (key : GoString) : Option Field :=
  match fieldNames.find? fun f => f.1 = key with
  | some f => some f.2
  | none => (fieldNames.find? fun f => equalFoldRight f.1 key).map fun f => f.2

/-- Assignment to one field. -/
def setField (cm : chatmessage) (f : Field) (s : GoString) : chatmessage :=
  match f with
  | .Message => { cm with Message := s }
  | .SenderID => { cm with SenderID := s }
  | .SenderName => { cm with SenderName := s }

/-- The part of `decodeState` that `Unmarshal` returns: the struct being filled
and the first error saved by `saveError`. -/
structure decodeState where
  cm : chatmessage
  savedError : Option JsonError
deriving DecidableEq, Repr

/-- Method `decodeState.saveError`: only the first error is kept. -/
def decodeState.saveError (d : decodeState) (err : JsonError) : decodeState :=
  match d.savedError with
  | none => { d with savedError := some err }
  | some _ => d

/-- One round of the loop of `decodeState.object` at a struct of string fields:
a key that names no field is skipped with its value; a string value is
unquoted and stored; `null` leaves the field as it is; any other value saves an
`UnmarshalTypeError` and is skipped. A literal that does not unquote is the
decoder's phase panic, reported here as `outOfSync`. -/
def storeMember (d : decodeState) (member : GoString × Kind) : decodeState :=
  match unquoteBytes member.1 with
  | none => { d with savedError := some .outOfSync }
  | some key =>
    match findField key with
    | none => d
    | some f =>
      match member.2 with
      | .string body =>
        match unquoteBytes body with
        | none => { d with savedError := some .outOfSync }
        | some s => { d with cm := setField d.cm f s }
      | .null => d
      | .bool => d.saveError (.unmarshalType "bool")
      | .number => d.saveError (.unmarshalType "number")
      | .array => d.saveError (.unmarshalType "array")
      | .object => d.saveError (.unmarshalType "object")

/-- Modelled from the spec: the deserializer of the wire envelope,
`json.Unmarshal` of Go's standard library, which is not among the sources. This
is `json.Unmarshal` into a `*chatmessage` that holds `cm`: the struct after the
call and the error returned. The input is checked as a whole first; an object
fills the fields member by member; `null` changes nothing; any other value is
an `UnmarshalTypeError`. -/
def Unmarshal (data : GoString) (cm : chatmessage) : chatmessage × Option JsonError :=
  match scanTop data with
  | none => (cm, some .invalidSyntax)
  | some (.object members) =>
    let d := members.foldl storeMember { cm := cm, savedError := none }
    (d.cm, d.savedError)
  | some .null => (cm, none)
  | some .bool => (cm, some (.unmarshalType "bool"))
  | some .number => (cm, some (.unmarshalType "number"))
  | some (.string _) => (cm, some (.unmarshalType "string"))
  | some .array => (cm, some (.unmarshalType "array"))

/-! ## `chat.go`: data -/

/-- Type `peer.ID`, a Go string. -/
abbrev PeerID := GoString

/-- A Go `error` value that is not nil, by its text. -/
abbrev GoError := String

/-- Constant `defaultuser`. -/
def defaultuser : GoString := lit "newuser"

/-- Constant `defaultroom`. -/
def defaultroom : GoString := lit "lobby"

/-- Type `chatlog`. -/
structure chatlog where
  logprefix : GoString
  logmsg : GoString
deriving DecidableEq, Repr

/-- A `*pubsub.Topic`, known by the name it was joined with. -/
structure Topic where
  name : GoString
deriving DecidableEq, Repr

/-- A `*pubsub.Subscription`, known by the name of its topic. -/
structure Subscription where
  topic : GoString
deriving DecidableEq, Repr

/-- The state of the host's `*pubsub.PubSub` that `chat.go` changes: the topics
with an open handle and the subscriptions opened on them. -/
structure PubSub where
  myTopics : List GoString
  mySubs : List GoString
deriving DecidableEq, Repr

/-- Type `P2P`, the host: its peer identity (`Host.ID()`) and its `PubSub`. -/
structure P2P where
  HostID : PeerID
  PubSub : PubSub
deriving DecidableEq, Repr

/-- Type `ChatRoom`. The channels and the cancellation scope are known by the
number they got when they were made; `pscancel` cancels the scope `psctx`. The
field `Host` points at the host, which is part of the `World`. -/
structure ChatRoom where
  Inbound : Nat
  Outbound : Nat
  Logs : Nat
  RoomName : GoString
  UserName : GoString
  selfid : PeerID
  psctx : Nat
  pstopic : Topic
  psub : Subscription
deriving DecidableEq, Repr

/-- The two loops of a relay. -/
inductive Loop
  | SubLoop
  | PubLoop
deriving DecidableEq, Repr

/-- What a call of `JoinChatRoom` can change: the host, the number of channels
made (`make(chan ...)`), the number of cancellation scopes derived
(`context.WithCancel`) and the goroutines started (`go ...`), each with the relay
it runs on. -/
structure World where
  host : P2P
  chans : Nat
  scopes : Nat
  goroutines : List (Loop × ChatRoom)
deriving DecidableEq, Repr

/-- What the transport answers during one call of `JoinChatRoom`: the error of
`PubSub.Join` and the error of `Topic.Subscribe`, `none` for nil. -/
structure JoinAnswers where
  join : Option GoError
  subscribe : Option GoError
deriving DecidableEq, Repr

/-- Modelled from the spec: the transport's `join(topicName) -> Topic | error`
(`PubSub.Join` of go-libp2p-pubsub, which is not among the sources). Whether it
fails is the transport's answer; on success the host holds a handle on the
topic, to be released with `Topic.Close`. -/
def PubSub.Join (ps : PubSub) (answer : Option GoError) (topic : GoString) :
    Except GoError Topic × PubSub :=
  match answer with
  | some err => (.error err, ps)
  | none => (.ok { name := topic }, { ps with myTopics := topic :: ps.myTopics })

/-- Modelled from the spec: the transport's `Topic.subscribe() -> Subscription
| error` (`Topic.Subscribe` of go-libp2p-pubsub, which is not among the
sources). Whether it fails is the transport's answer; on success the host
holds one more subscription, to be released with `Subscription.Cancel`. -/
def Topic.Subscribe (t : Topic) (ps : PubSub) (answer : Option GoError) :
    Except GoError Subscription × PubSub :=
  match answer with
  | some err => (.error err, ps)
  | none => (.ok { topic := t.name }, { ps with mySubs := t.name :: ps.mySubs })

/-! ## `chat.go`: `JoinChatRoom` -/

/-- Function `JoinChatRoom`: the relay and the error it returns, and the world
after the call. -/
def JoinChatRoom (w : World) (answers : JoinAnswers) (username roomname : GoString) :
    (Option ChatRoom × Option GoError) × World :=
  match w.host.PubSub.Join answers.join (lit "room-peerchat-" ++ roomname) with
  | (.error err, ps) => ((none, some err), { w with host := { w.host with PubSub := ps } })
  | (.ok topic, ps) =>
    match topic.Subscribe ps answers.subscribe with
    | (.error err, ps1) =>
      ((none, some err), { w with host := { w.host with PubSub := ps1 } })
    | (.ok sub, ps1) =>
      let username := if username = [] then defaultuser else username
      let roomname := if roomname = [] then defaultroom else roomname
      let chatroom : ChatRoom :=
        { Inbound := w.chans
          Outbound := w.chans + 1
          Logs := w.chans + 2
          psctx := w.scopes
          pstopic := topic
          psub := sub
          RoomName := roomname
          UserName := username
          selfid := w.host.HostID }
      ((some chatroom, none),
        { host := { w.host with PubSub := ps1 }
          chans := w.chans + 3
          scopes := w.scopes + 1
          goroutines := w.goroutines ++ [(.SubLoop, chatroom), (.PubLoop, chatroom)] })

/-! ## `chat.go`: the loops -/

/-- What a loop does that others can see. -/
inductive Effect
  | inbound (cm : chatmessage)
  | closeInbound
  | log (l : chatlog)
  | publish (data : GoString)
deriving DecidableEq, Repr

/-- A run of a loop over the events it was given: its effects in order, and
whether it returned (`false`: it waits for the next event). -/
structure Run where
  effects : List Effect
  returned : Bool
deriving DecidableEq, Repr

/-- The run that performs `es` first. -/
def Run.after (es : List Effect) (r : Run) : Run :=
  { r with effects := es ++ r.effects }

/-- A `*pubsub.Message`: the peer it was received from and its payload. -/
structure Message where
  ReceivedFrom : PeerID
  Data : GoString
deriving DecidableEq, Repr

/-- Why `Subscription.Next(ctx)` returned an error: the subscription has
terminated, or the context passed to it was cancelled while it waited (it then
returns the context's error). -/
inductive NextError
  | subscriptionTerminated
  | scopeCancelled
deriving DecidableEq, Repr

/-- What one iteration of `SubLoop` meets: `<-cr.psctx.Done()` is ready at the
`select`, or the `default` case runs and `cr.psub.Next(cr.psctx)` returns a
message or an error. -/
inductive SubEvent
  | done
  | next (result : Except NextError Message)

/-- Method `ChatRoom.SubLoop`. Sends on `Inbound` and `Logs` are received at
once. -/
def SubLoop (cr : ChatRoom) : List SubEvent → Run
  | [] => { effects := [], returned := false }
  | .done :: _ => { effects := [], returned := true }
  | .next (.error _) :: _ =>
    { effects := [.closeInbound,
        .log { logprefix := lit "suberr", logmsg := lit "subscription has closed" }]
      returned := true }
  | .next (.ok message) :: rest =>
    if message.ReceivedFrom = cr.selfid then SubLoop cr rest
    else
      match Unmarshal message.Data { Message := [], SenderID := [], SenderName := [] } with
      | (_, some _) =>
        (SubLoop cr rest).after
          [.log { logprefix := lit "suberr", logmsg := lit "could not unmarshal JSON" }]
      | (cm, none) => (SubLoop cr rest).after [.inbound cm]

/-- Method `ChatRoom.UpdateUser`. -/
def ChatRoom.UpdateUser (cr : ChatRoom) (username : GoString) : ChatRoom :=
  { cr with UserName := username }

/-- What one iteration of `PubLoop` meets: `<-cr.psctx.Done()` is chosen by the
`select`, or a string arrives on `Outbound` and `Publish` will answer with the
given error (`none` for nil). `updateUser` is a call of `UpdateUser` by another
goroutine between two iterations. -/
inductive PubEvent
  | done
  | outbound (message : GoString) (publishErr : Option GoError)
  | updateUser (username : GoString)

/-- Method `ChatRoom.PubLoop`. `Pretty` is `peer.ID.Pretty`. -/
def PubLoop (Pretty : PeerID → GoString) (cr : ChatRoom) : List PubEvent → Run
  | [] => { effects := [], returned := false }
  | .done :: _ => { effects := [], returned := true }
  | .updateUser username :: rest => PubLoop Pretty (cr.UpdateUser username) rest
  | .outbound message publishErr :: rest =>
    let m : chatmessage :=
      { Message := message, SenderID := Pretty cr.selfid, SenderName := cr.UserName }
    match Marshal m with
    | .error _ =>
      (PubLoop Pretty cr rest).after
        [.log { logprefix := lit "puberr", logmsg := lit "could not marshal JSON" }]
    | .ok messagebytes =>
      match publishErr with
      | some _ =>
        (PubLoop Pretty cr rest).after
          [.publish messagebytes,
            .log { logprefix := lit "puberr", logmsg := lit "could not publish to topic" }]
      | none => (PubLoop Pretty cr rest).after [.publish messagebytes]

/-! ## `chat.go`: `Exit` -/

/-- A release step of `Exit`. -/
inductive ReleaseCall
  | subCancel (sub : Subscription)
  | topicClose (topic : Topic)
  | scopeCancel (ctx : Nat)
deriving DecidableEq, Repr

/-- Whether the two calls in the body of `Exit` are interrupted by a panic. -/
structure ExitAnswers where
  subCancelPanics : Bool
  topicClosePanics : Bool
deriving DecidableEq, Repr

/-- A run of `Exit`: the calls it made in order, whether it ended in a panic,
and the relay after it. -/
structure ExitRun where
  calls : List ReleaseCall
  panicked : Bool
  cr : ChatRoom
deriving DecidableEq, Repr

/-- The body of `Exit` after the `defer`: `cr.psub.Cancel()`, then
`cr.pstopic.Close()`; a call that panics ends the body. -/
def ExitBody (cr : ChatRoom) (answers : ExitAnswers) : List ReleaseCall × Bool :=
  if answers.subCancelPanics then ([.subCancel cr.psub], true)
  else if answers.topicClosePanics then ([.subCancel cr.psub, .topicClose cr.pstopic], true)
  else ([.subCancel cr.psub, .topicClose cr.pstopic], false)

/-- Method `ChatRoom.Exit`: the body, then the deferred `cr.pscancel()`, which
runs however the body ended. -/
def Exit (cr : ChatRoom) (answers : ExitAnswers) : ExitRun :=
  let body := ExitBody cr answers
  { calls := body.1 ++ [.scopeCancel cr.psctx], panicked := body.2, cr := cr }

/-! ## Vocabulary of the statements -/

/-- The bound of `scanValue` is not used up on inputs of at most `n` bytes: any
two bounds from `2 * n + 1` on give the same result, and the input left over is
shorter than the input given. -/
def scanValueStable (n : Nat) : Prop :=
  ∀ (s : GoString) (depth F F' : Nat), s.length ≤ n → 2 * n + 1 ≤ F → 2 * n + 1 ≤ F' →
    scanValue F depth s = scanValue F' depth s
    ∧ ∀ v r, scanValue F depth s = some (v, r) → r.length < s.length

/-- The same for `scanElements`, with bounds from `2 * n + 2` on. -/
def scanElementsStable (n : Nat) : Prop :=
  ∀ (s : GoString) (depth F F' : Nat), s.length ≤ n → 2 * n + 2 ≤ F → 2 * n + 2 ≤ F' →
    scanElements F depth s = scanElements F' depth s
    ∧ ∀ r, scanElements F depth s = some r → r.length < s.length

/-- The same for `scanMembers`, with bounds from `2 * n + 2` on. -/
def scanMembersStable (n : Nat) : Prop :=
  ∀ (s : GoString) (depth F F' : Nat), s.length ≤ n → 2 * n + 2 ≤ F → 2 * n + 2 ≤ F' →
    scanMembers F depth s = scanMembers F' depth s
    ∧ ∀ m r, scanMembers F depth s = some (m, r) → r.length < s.length

/-- A Go string with each byte that `DecodeRune` rejects replaced by the three
bytes of U+FFFD and every other rune kept: what `encoding/json` calls the
string coerced to valid UTF-8. `fuel` bounds the number of runes. -/
def replaceInvalid : Nat → GoString → GoString
  | 0, _ => []
  | _, [] => []
  | fuel + 1, b :: rest =>
    let d := DecodeRune (b :: rest)
    if d.1 = RuneError ∧ d.2 = 1 then [0xEF, 0xBF, 0xBD] ++ replaceInvalid fuel rest
    else (b :: rest).take d.2 ++ replaceInvalid fuel ((b :: rest).drop d.2)

/-- A Go string coerced to valid UTF-8. -/
def coerced (s : GoString) : GoString := replaceInvalid s.length s

/-- The events of a subscription that delivers `msgs` and nothing else. -/
def deliveries (msgs : List Message) : List SubEvent :=
  msgs.map fun m => SubEvent.next (.ok m)

/-- The structured message a delivery contributes to `Inbound` according to
the specification: none when the sender is the local identity, none when the
payload does not deserialize, the deserialized envelope otherwise. -/
def forwarded (cr : ChatRoom) (m : Message) : Option chatmessage :=
  if m.ReceivedFrom = cr.selfid then none
  else
    match Unmarshal m.Data { Message := [], SenderID := [], SenderName := [] } with
    | (cm, none) => some cm
    | (_, some _) => none

/-- The messages sent on `Inbound`, in order. -/
def inboundOf (es : List Effect) : List chatmessage :=
  es.filterMap fun e =>
    match e with
    | .inbound cm => some cm
    | _ => none

/-- The events sent on `Logs`, in order. -/
def logsOf (es : List Effect) : List chatlog :=
  es.filterMap fun e =>
    match e with
    | .log l => some l
    | _ => none

/-- The payloads handed to `Publish`, in order. -/
def publishedOf (es : List Effect) : List GoString :=
  es.filterMap fun e =>
    match e with
    | .publish data => some data
    | _ => none

/-- The terminal log event of `SubLoop`. -/
def subscriptionClosedLog : chatlog :=
  { logprefix := lit "suberr", logmsg := lit "subscription has closed" }

/-- The receive-error log event of `SubLoop`. -/
def unmarshalLog : chatlog :=
  { logprefix := lit "suberr", logmsg := lit "could not unmarshal JSON" }

/-- The relay after the calls of `UpdateUser` among the events `evs`. -/
def renamed (cr : ChatRoom) : List PubEvent → ChatRoom
  | [] => cr
  | .updateUser username :: rest => renamed (cr.UpdateUser username) rest
  | _ :: rest => renamed cr rest

/-- No event of the list is a cancellation. -/
def noDone : List PubEvent → Bool
  | [] => true
  | .done :: _ => false
  | _ :: rest => noDone rest

/-- A relay for the concrete examples: user `al` in room `lobby` on the host
with identity `[1]`. -/
def sampleRoom : ChatRoom :=
  { Inbound := 0, Outbound := 1, Logs := 2
    RoomName := lit "lobby", UserName := lit "al", selfid := [1]
    psctx := 0
    pstopic := { name := lit "room-peerchat-lobby" }
    psub := { topic := lit "room-peerchat-lobby" } }

/-- A host for the concrete examples, with nothing joined. -/
def sampleWorld : World :=
  { host := { HostID := [1], PubSub := { myTopics := [], mySubs := [] } }
    chans := 0, scopes := 0, goroutines := [] }

/-! # Theorems -/

/-! ## UTF-8: decoding a rune and encoding it again -/

theorem and_7 (x : Nat) : x &&& 7 = x % 8 := Nat.and_pow_two_sub_one_eq_mod x 3
theorem and_15 (x : Nat) : x &&& 15 = x % 16 := Nat.and_pow_two_sub_one_eq_mod x 4
theorem and_31 (x : Nat) : x &&& 31 = x % 32 := Nat.and_pow_two_sub_one_eq_mod x 5
theorem and_63 (x : Nat) : x &&& 63 = x % 64 := Nat.and_pow_two_sub_one_eq_mod x 6

theorem or_low (i k x : Nat) (h : x < 2 ^ i) : 2 ^ i * k ||| x = 2 ^ i * k + x :=
  (Nat.mul_add_lt_is_or h k).symm

theorem bits2 (a b : Nat) (hb : b < 64) : a <<< 6 ||| b = a * 64 + b := by
  rw [Nat.shiftLeft_eq, Nat.mul_comm, or_low 6 a b hb]

theorem bits3 (a b c : Nat) (hb : b < 64) (hc : c < 64) :
    a <<< 12 ||| b <<< 6 ||| c = a * 4096 + b * 64 + c := by
  rw [Nat.shiftLeft_eq, Nat.shiftLeft_eq, Nat.mul_comm a, or_low 12 a (b * 2 ^ 6) (by omega)]
  have : 2 ^ 12 * a + b * 2 ^ 6 = 2 ^ 6 * (a * 64 + b) := by omega
  rw [this, or_low 6 _ c hc]; omega

theorem bits4 (a b c d : Nat) (hb : b < 64) (hc : c < 64) (hd : d < 64) :
    a <<< 18 ||| b <<< 12 ||| c <<< 6 ||| d = a * 262144 + b * 4096 + c * 64 + d := by
  rw [Nat.shiftLeft_eq, Nat.shiftLeft_eq, Nat.shiftLeft_eq, Nat.mul_comm a,
    or_low 18 a (b * 2 ^ 12) (by omega)]
  have h1 : 2 ^ 18 * a + b * 2 ^ 12 = 2 ^ 12 * (a * 64 + b) := by omega
  rw [h1, or_low 12 _ (c * 2 ^ 6) (by omega)]
  have h2 : 2 ^ 12 * (a * 64 + b) + c * 2 ^ 6 = 2 ^ 6 * (a * 4096 + b * 64 + c) := by omega
  rw [h2, or_low 6 _ d hd]; omega

theorem or_128 (x : Nat) (h : x < 64) : 128 ||| x = 128 + x := or_low 6 2 x h
theorem or_192 (x : Nat) (h : x < 64) : 192 ||| x = 192 + x := or_low 6 3 x h
theorem or_224 (x : Nat) (h : x < 32) : 224 ||| x = 224 + x := or_low 5 7 x h
theorem or_240 (x : Nat) (h : x < 16) : 240 ||| x = 240 + x := or_low 4 15 x h

theorem encode_two (b s1 : Nat) (hb : 0xC2 ≤ b) (hb' : b ≤ 0xDF) (h1 : 0x80 ≤ s1) (h1' : s1 ≤ 0xBF) :
    EncodeRune ((b &&& 0x1F) <<< 6 ||| (s1 &&& 0x3F)) = [b, s1] := by
  rw [and_31, and_63, bits2 _ _ (by omega)]
  unfold EncodeRune
  rw [if_neg (by omega), if_pos (by omega)]
  simp only [byte, Nat.shiftRight_eq_div_pow, and_63]
  rw [or_192 _ (by omega), or_128 _ (by omega)]
  congr 1
  · omega
  · congr 1; omega

theorem encode_three (b s1 s2 : Nat) (hb : 0xE0 ≤ b) (hb' : b ≤ 0xEF)
    (h1 : 0x80 ≤ s1) (h1' : s1 ≤ 0xBF) (hlo : b = 0xE0 → 0xA0 ≤ s1) (hhi : b = 0xED → s1 ≤ 0x9F)
    (h2 : 0x80 ≤ s2) (h2' : s2 ≤ 0xBF) :
    EncodeRune ((b &&& 0x0F) <<< 12 ||| (s1 &&& 0x3F) <<< 6 ||| (s2 &&& 0x3F)) = [b, s1, s2] := by
  rw [and_15, and_63, and_63, bits3 _ _ _ (by omega) (by omega)]
  unfold EncodeRune
  rw [if_neg (by omega), if_neg (by omega), if_neg (by unfold MaxRune; omega), if_pos (by omega)]
  simp only [encode3, byte, Nat.shiftRight_eq_div_pow, and_63]
  rw [or_224 _ (by omega), or_128 _ (by omega), or_128 _ (by omega)]
  congr 1
  · omega
  · congr 1
    · omega
    · congr 1; omega

theorem encode_four (b s1 s2 s3 : Nat) (hb : 0xF0 ≤ b) (hb' : b ≤ 0xF4)
    (h1 : 0x80 ≤ s1) (h1' : s1 ≤ 0xBF) (hlo : b = 0xF0 → 0x90 ≤ s1) (hhi : b = 0xF4 → s1 ≤ 0x8F)
    (h2 : 0x80 ≤ s2) (h2' : s2 ≤ 0xBF) (h3 : 0x80 ≤ s3) (h3' : s3 ≤ 0xBF) :
    EncodeRune ((b &&& 0x07) <<< 18 ||| (s1 &&& 0x3F) <<< 12 ||| (s2 &&& 0x3F) <<< 6
      ||| (s3 &&& 0x3F)) = [b, s1, s2, s3] := by
  rw [and_7, and_63, and_63, and_63, bits4 _ _ _ _ (by omega) (by omega) (by omega)]
  unfold EncodeRune
  rw [if_neg (by omega), if_neg (by omega), if_neg (by unfold MaxRune; omega), if_neg (by omega)]
  simp only [byte, Nat.shiftRight_eq_div_pow, and_63]
  rw [or_240 _ (by omega), or_128 _ (by omega), or_128 _ (by omega), or_128 _ (by omega)]
  congr 1
  · omega
  · congr 1
    · omega
    · congr 1
      · omega
      · congr 1; omega


theorem first_two (b : Nat) (hb : 0xC2 ≤ b) (hb' : b ≤ 0xDF) : first b = 0x02 := by
  unfold first
  repeat (first | rw [if_pos (by omega)] | rw [if_neg (by omega)])

theorem first_three (b : Nat) (hb : 0xE1 ≤ b) (hb' : b ≤ 0xEF) (hne : b ≠ 0xED) :
    first b = 0x03 := by
  unfold first
  by_cases h : b < 0xED <;> repeat (first | rw [if_pos (by omega)] | rw [if_neg (by omega)])

theorem first_four (b : Nat) (hb : 0xF1 ≤ b) (hb' : b ≤ 0xF3) : first b = 0x04 := by
  unfold first
  repeat (first | rw [if_pos (by omega)] | rw [if_neg (by omega)])

theorem first_invalid (b : Nat) (hb : 0x80 ≤ b) (h : b < 0xC2 ∨ 0xF4 < b) : first b = 0xF1 := by
  unfold first
  rcases h with h | h <;> repeat (first | rw [if_pos (by omega)] | rw [if_neg (by omega)])

theorem first_ascii (b : Nat) (hb : b < 0x80) : first b = 0xF0 := by
  unfold first
  rw [if_pos hb]

theorem first_three_cases (b : Nat) (hb : 0xE0 ≤ b) (hb' : b ≤ 0xEF) :
    (b = 0xE0 ∧ first b = 0x13) ∨ (b = 0xED ∧ first b = 0x23) 
      ∨ (b ≠ 0xE0 ∧ b ≠ 0xED ∧ first b = 0x03) := by
  by_cases h0 : b = 0xE0
  · subst h0; exact Or.inl ⟨rfl, rfl⟩
  · by_cases h1 : b = 0xED
    · subst h1; exact Or.inr (Or.inl ⟨rfl, rfl⟩)
    · exact Or.inr (Or.inr ⟨h0, h1, first_three b (by omega) hb' h1⟩)

theorem first_four_cases (b : Nat) (hb : 0xF0 ≤ b) (hb' : b ≤ 0xF4) :
    (b = 0xF0 ∧ first b = 0x34) ∨ (b = 0xF4 ∧ first b = 0x44) 
      ∨ (b ≠ 0xF0 ∧ b ≠ 0xF4 ∧ first b = 0x04) := by
  by_cases h0 : b = 0xF0
  · subst h0; exact Or.inl ⟨rfl, rfl⟩
  · by_cases h1 : b = 0xF4
    · subst h1; exact Or.inr (Or.inl ⟨rfl, rfl⟩)
    · exact Or.inr (Or.inr ⟨h0, h1, first_four b (by omega) (by omega)⟩)

theorem decode_two (b s1 : Nat) (X : GoString) (hb : 0xC2 ≤ b) (hb' : b ≤ 0xDF)
    (h1 : 0x80 ≤ s1) (h1' : s1 ≤ 0xBF) :
    DecodeRune (b :: s1 :: X) = ((b &&& 0x1F) <<< 6 ||| (s1 &&& 0x3F), 2) := by
  have c1 : ¬ (s1 < 128 ∨ 191 < s1) := by omega
  simp only [DecodeRune, first_two b hb hb']
  norm_num [acceptRanges, and_7, c1]

theorem decode_three (b s1 s2 : Nat) (X : GoString) (hb : 0xE0 ≤ b) (hb' : b ≤ 0xEF)
    (h1 : 0x80 ≤ s1) (h1' : s1 ≤ 0xBF) (hlo : b = 0xE0 → 0xA0 ≤ s1) (hhi : b = 0xED → s1 ≤ 0x9F)
    (h2 : 0x80 ≤ s2) (h2' : s2 ≤ 0xBF) :
    DecodeRune (b :: s1 :: s2 :: X)
      = ((b &&& 0x0F) <<< 12 ||| (s1 &&& 0x3F) <<< 6 ||| (s2 &&& 0x3F), 3) := by
  have c2 : ¬ (s2 < 128 ∨ 191 < s2) := by omega
  rcases first_three_cases b hb hb' with ⟨h, hf⟩ | ⟨h, hf⟩ | ⟨h, h', hf⟩
  · have c1 : ¬ (s1 < 160 ∨ 191 < s1) := by have := hlo h; omega
    simp only [DecodeRune, hf]
    norm_num [acceptRanges, and_7, c1, c2]
  · have c1 : ¬ (s1 < 128 ∨ 159 < s1) := by have := hhi h; omega
    simp only [DecodeRune, hf]
    norm_num [acceptRanges, and_7, c1, c2]
  · have c1 : ¬ (s1 < 128 ∨ 191 < s1) := by omega
    simp only [DecodeRune, hf]
    norm_num [acceptRanges, and_7, c1, c2]

theorem decode_four (b s1 s2 s3 : Nat) (X : GoString) (hb : 0xF0 ≤ b) (hb' : b ≤ 0xF4)
    (h1 : 0x80 ≤ s1) (h1' : s1 ≤ 0xBF) (hlo : b = 0xF0 → 0x90 ≤ s1) (hhi : b = 0xF4 → s1 ≤ 0x8F)
    (h2 : 0x80 ≤ s2) (h2' : s2 ≤ 0xBF) (h3 : 0x80 ≤ s3) (h3' : s3 ≤ 0xBF) :
    DecodeRune (b :: s1 :: s2 :: s3 :: X)
      = ((b &&& 0x07) <<< 18 ||| (s1 &&& 0x3F) <<< 12 ||| (s2 &&& 0x3F) <<< 6
          ||| (s3 &&& 0x3F), 4) := by
  have c2 : ¬ (s2 < 128 ∨ 191 < s2) := by omega
  have c3 : ¬ (s3 < 128 ∨ 191 < s3) := by omega
  rcases first_four_cases b hb hb' with ⟨h, hf⟩ | ⟨h, hf⟩ | ⟨h, h', hf⟩
  · have c1 : ¬ (s1 < 144 ∨ 191 < s1) := by have := hlo h; omega
    simp only [DecodeRune, hf]
    norm_num [acceptRanges, and_7, c1, c2, c3]
  · have c1 : ¬ (s1 < 128 ∨ 143 < s1) := by have := hhi h; omega
    simp only [DecodeRune, hf]
    norm_num [acceptRanges, and_7, c1, c2, c3]
  · have c1 : ¬ (s1 < 128 ∨ 191 < s1) := by omega
    simp only [DecodeRune, hf]
    norm_num [acceptRanges, and_7, c1, c2, c3]
theorem decode_cases_two (b : Nat) (rest : GoString) (hb : 0xC2 ≤ b) (hb' : b ≤ 0xDF) :
    DecodeRune (b :: rest) = (RuneError, 1)
    ∨ ∃ s1 t, rest = s1 :: t ∧ 0x80 ≤ s1 ∧ s1 ≤ 0xBF := by
  cases rest with
  | nil =>
    left
    simp only [DecodeRune, first_two b hb hb']
    norm_num [acceptRanges, and_7]
  | cons s1 t =>
    by_cases c1 : s1 < 128 ∨ 191 < s1
    · left
      simp only [DecodeRune, first_two b hb hb']
      norm_num [acceptRanges, and_7, c1]
    · right
      exact ⟨s1, t, rfl, by omega, by omega⟩

theorem decode_cases_three (b : Nat) (rest : GoString) (hb : 0xE0 ≤ b) (hb' : b ≤ 0xEF) :
    DecodeRune (b :: rest) = (RuneError, 1)
    ∨ ∃ s1 s2 t, rest = s1 :: s2 :: t ∧ 0x80 ≤ s1 ∧ s1 ≤ 0xBF ∧ (b = 0xE0 → 0xA0 ≤ s1)
        ∧ (b = 0xED → s1 ≤ 0x9F) ∧ 0x80 ≤ s2 ∧ s2 ≤ 0xBF := by
  rcases rest with _ | ⟨s1, _ | ⟨s2, t⟩⟩
  · left
    rcases first_three_cases b hb hb' with ⟨h, hf⟩ | ⟨h, hf⟩ | ⟨h, h', hf⟩ <;>
      simp only [DecodeRune, hf] <;> norm_num [acceptRanges, and_7]
  · left
    rcases first_three_cases b hb hb' with ⟨h, hf⟩ | ⟨h, hf⟩ | ⟨h, h', hf⟩ <;>
      simp only [DecodeRune, hf] <;> norm_num [acceptRanges, and_7]
  · by_cases c2 : s2 < 128 ∨ 191 < s2
    · left
      rcases first_three_cases b hb hb' with ⟨h, hf⟩ | ⟨h, hf⟩ | ⟨h, h', hf⟩ <;>
        simp only [DecodeRune, hf] <;> norm_num [acceptRanges, and_7, c2]
    · rcases first_three_cases b hb hb' with ⟨h, hf⟩ | ⟨h, hf⟩ | ⟨h, h', hf⟩
      · by_cases c1 : s1 < 160 ∨ 191 < s1
        · left
          simp only [DecodeRune, hf]; norm_num [acceptRanges, and_7, c1]
        · right
          exact ⟨s1, s2, t, rfl, by omega, by omega, by omega, by omega, by omega, by omega⟩
      · by_cases c1 : s1 < 128 ∨ 159 < s1
        · left
          simp only [DecodeRune, hf]; norm_num [acceptRanges, and_7, c1]
        · right
          exact ⟨s1, s2, t, rfl, by omega, by omega, by omega, by omega, by omega, by omega⟩
      · by_cases c1 : s1 < 128 ∨ 191 < s1
        · left
          simp only [DecodeRune, hf]; norm_num [acceptRanges, and_7, c1]
        · right
          exact ⟨s1, s2, t, rfl, by omega, by omega, by omega, by omega, by omega, by omega⟩

theorem decode_cases_four (b : Nat) (rest : GoString) (hb : 0xF0 ≤ b) (hb' : b ≤ 0xF4) :
    DecodeRune (b :: rest) = (RuneError, 1)
    ∨ ∃ s1 s2 s3 t, rest = s1 :: s2 :: s3 :: t ∧ 0x80 ≤ s1 ∧ s1 ≤ 0xBF ∧ (b = 0xF0 → 0x90 ≤ s1)
        ∧ (b = 0xF4 → s1 ≤ 0x8F) ∧ 0x80 ≤ s2 ∧ s2 ≤ 0xBF ∧ 0x80 ≤ s3 ∧ s3 ≤ 0xBF := by
  rcases rest with _ | ⟨s1, _ | ⟨s2, _ | ⟨s3, t⟩⟩⟩
  · left
    rcases first_four_cases b hb hb' with ⟨h, hf⟩ | ⟨h, hf⟩ | ⟨h, h', hf⟩ <;>
      simp only [DecodeRune, hf] <;> norm_num [acceptRanges, and_7]
  · left
    rcases first_four_cases b hb hb' with ⟨h, hf⟩ | ⟨h, hf⟩ | ⟨h, h', hf⟩ <;>
      simp only [DecodeRune, hf] <;> norm_num [acceptRanges, and_7]
  · left
    rcases first_four_cases b hb hb' with ⟨h, hf⟩ | ⟨h, hf⟩ | ⟨h, h', hf⟩ <;>
      simp only [DecodeRune, hf] <;> norm_num [acceptRanges, and_7]
  · by_cases c2 : s2 < 128 ∨ 191 < s2
    · left
      rcases first_four_cases b hb hb' with ⟨h, hf⟩ | ⟨h, hf⟩ | ⟨h, h', hf⟩ <;>
        simp only [DecodeRune, hf] <;> norm_num [acceptRanges, and_7, c2]
    · by_cases c3 : s3 < 128 ∨ 191 < s3
      · left
        rcases first_four_cases b hb hb' with ⟨h, hf⟩ | ⟨h, hf⟩ | ⟨h, h', hf⟩ <;>
          simp only [DecodeRune, hf] <;> norm_num [acceptRanges, and_7, c2, c3]
      · rcases first_four_cases b hb hb' with ⟨h, hf⟩ | ⟨h, hf⟩ | ⟨h, h', hf⟩
        · by_cases c1 : s1 < 144 ∨ 191 < s1
          · left
            simp only [DecodeRune, hf]; norm_num [acceptRanges, and_7, c1]
          · right
            exact ⟨s1, s2, s3, t, rfl, by omega, by omega, by omega, by omega, by omega,
              by omega, by omega, by omega⟩
        · by_cases c1 : s1 < 128 ∨ 143 < s1
          · left
            simp only [DecodeRune, hf]; norm_num [acceptRanges, and_7, c1]
          · right
            exact ⟨s1, s2, s3, t, rfl, by omega, by omega, by omega, by omega, by omega,
              by omega, by omega, by omega⟩
        · by_cases c1 : s1 < 128 ∨ 191 < s1
          · left
            simp only [DecodeRune, hf]; norm_num [acceptRanges, and_7, c1]
          · right
            exact ⟨s1, s2, s3, t, rfl, by omega, by omega, by omega, by omega, by omega,
              by omega, by omega, by omega⟩

theorem decode_invalid_first (b : Nat) (rest : GoString) (hb : 0x80 ≤ b)
    (h : b < 0xC2 ∨ 0xF4 < b) : DecodeRune (b :: rest) = (RuneError, 1) := by
  simp only [DecodeRune, first_invalid b hb h]
  norm_num

theorem decode_ascii (b : Nat) (rest : GoString) (hb : b < 0x80) :
    DecodeRune (b :: rest) = (b, 1) := by
  simp only [DecodeRune, first_ascii b hb]
  norm_num

/-- A first byte from `0x80` on that `DecodeRune` does not reject starts a
sequence `p` of two to four bytes, all from `0x80` on; the rune decoded is
encoded as `p` again, and it is decoded from `p` whatever follows. -/
theorem DecodeRune_valid (b : Nat) (rest : GoString) (hb : 0x80 ≤ b)
    (hv : ¬ ((DecodeRune (b :: rest)).1 = RuneError ∧ (DecodeRune (b :: rest)).2 = 1)) :
    ∃ p t, b :: rest = p ++ t ∧ p.length = (DecodeRune (b :: rest)).2 ∧ 2 ≤ p.length
      ∧ (∀ x ∈ p, 0x80 ≤ x) ∧ EncodeRune (DecodeRune (b :: rest)).1 = p
      ∧ ∀ X, DecodeRune (p ++ X) = DecodeRune (b :: rest) := by
  by_cases h0 : b < 0xC2 ∨ 0xF4 < b
  · rw [decode_invalid_first b rest hb h0] at hv
    exact absurd ⟨rfl, rfl⟩ hv
  · by_cases h2 : b ≤ 0xDF
    · rcases decode_cases_two b rest (by omega) h2 with h | ⟨s1, t, rfl, h1, h1'⟩
      · rw [h] at hv; exact absurd ⟨rfl, rfl⟩ hv
      · have hd := decode_two b s1 t (by omega) h2 h1 h1'
        refine ⟨[b, s1], t, rfl, by rw [hd]; rfl, by simp, ?_, ?_, ?_⟩
        · intro x hx; simp at hx; omega
        · rw [hd]; exact encode_two b s1 (by omega) h2 h1 h1'
        · intro X; rw [hd]; exact decode_two b s1 X (by omega) h2 h1 h1'
    · by_cases h3 : b ≤ 0xEF
      · rcases decode_cases_three b rest (by omega) h3 with
          h | ⟨s1, s2, t, rfl, h1, h1', hlo, hhi, h2, h2'⟩
        · rw [h] at hv; exact absurd ⟨rfl, rfl⟩ hv
        · have hd := decode_three b s1 s2 t (by omega) h3 h1 h1' hlo hhi h2 h2'
          refine ⟨[b, s1, s2], t, rfl, by rw [hd]; rfl, by simp, ?_, ?_, ?_⟩
          · intro x hx; simp at hx; omega
          · rw [hd]; exact encode_three b s1 s2 (by omega) h3 h1 h1' hlo hhi h2 h2'
          · intro X; rw [hd]
            exact decode_three b s1 s2 X (by omega) h3 h1 h1' hlo hhi h2 h2'
      · rcases decode_cases_four b rest (by omega) (by omega) with
          h | ⟨s1, s2, s3, t, rfl, h1, h1', hlo, hhi, h2, h2', h3, h3'⟩
        · rw [h] at hv; exact absurd ⟨rfl, rfl⟩ hv
        · have hd := decode_four b s1 s2 s3 t (by omega) (by omega) h1 h1' hlo hhi h2 h2' h3 h3'
          refine ⟨[b, s1, s2, s3], t, rfl, by rw [hd]; rfl, by simp, ?_, ?_, ?_⟩
          · intro x hx; simp at hx; omega
          · rw [hd]
            exact encode_four b s1 s2 s3 (by omega) (by omega) h1 h1' hlo hhi h2 h2' h3 h3'
          · intro X; rw [hd]
            exact decode_four b s1 s2 s3 X (by omega) (by omega) h1 h1' hlo hhi h2 h2' h3 h3'

/-- The width `DecodeRune` reports for a non-empty input is at least one. -/
theorem DecodeRune_size_pos (b : Nat) (rest : GoString) : 1 ≤ (DecodeRune (b :: rest)).2 := by
  by_cases hb : b < 0x80
  · rw [decode_ascii b rest hb]
  · by_cases hv : (DecodeRune (b :: rest)).1 = RuneError ∧ (DecodeRune (b :: rest)).2 = 1
    · omega
    · obtain ⟨p, t, _, hl, h2, _⟩ := DecodeRune_valid b rest (by omega) hv
      omega

/-! ## The scanner accepts what the encoder writes -/

theorem htmlSafeSet_plain (b : Nat) (h : htmlSafeSet b = true) :
    0x20 ≤ b ∧ b < 0x80 ∧ b ≠ 0x22 ∧ b ≠ 0x5C := by
  simp [htmlSafeSet] at h
  omega

theorem isHex_hex (x : Nat) (h : x < 16) : isHex (hex x) = true := by
  have : ∀ y < 16, isHex (hex y) = true := by decide
  exact this x h

theorem hexVal_hex (x : Nat) (h : x < 16) : hexVal (hex x) = some x := by
  have : ∀ y < 16, hexVal (hex y) = some y := by decide
  exact this x h

theorem scanString_cons (c : Nat) (rest : GoString) :
    scanString (c :: rest) =
      if c = 0x22 then some ([], rest)
      else if c = 0x5C then
        match rest with
        | [] => none
        | e :: rest1 =>
          if e = 0x62 ∨ e = 0x66 ∨ e = 0x6E ∨ e = 0x72 ∨ e = 0x74 ∨ e = 0x5C ∨ e = 0x2F
              ∨ e = 0x22 then
            (scanString rest1).map fun r => (c :: e :: r.1, r.2)
          else if e = 0x75 then
            match rest1 with
            | h1 :: h2 :: h3 :: h4 :: rest2 =>
              if isHex h1 ∧ isHex h2 ∧ isHex h3 ∧ isHex h4 then
                (scanString rest2).map fun r => (c :: e :: h1 :: h2 :: h3 :: h4 :: r.1, r.2)
              else none
            | _ => none
          else none
      else if c < 0x20 then none
      else (scanString rest).map fun r => (c :: r.1, r.2) := by
  conv_lhs => rw [scanString.eq_def]
  rfl

theorem scanString_plain (pre X : GoString) (h : ∀ x ∈ pre, 0x20 ≤ x ∧ x ≠ 0x22 ∧ x ≠ 0x5C) :
    scanString (pre ++ X) = (scanString X).map fun r => (pre ++ r.1, r.2) := by
  induction pre with
  | nil => simp
  | cons c cs ih =>
    have hc := h c (by simp)
    simp only [List.cons_append, scanString_cons]
    rw [if_neg hc.2.1, if_neg hc.2.2, if_neg (by omega), ih (fun x hx => h x (by simp [hx]))]
    cases scanString X <;> simp

theorem scanString_quote (tail : GoString) : scanString (0x22 :: tail) = some ([], tail) := by
  simp [scanString_cons]

theorem scanString_escapeByte (b : Nat) (hb : b < 0x80) (X : GoString) :
    scanString (escapeByte b ++ X) = (scanString X).map fun r => (escapeByte b ++ r.1, r.2) := by
  unfold escapeByte
  by_cases h1 : b = 0x5C ∨ b = 0x22
  · rw [if_pos h1]
    rcases h1 with rfl | rfl <;> simp [scanString_cons]
  · rw [if_neg h1]
    by_cases h2 : b = 0x0A
    · rw [if_pos h2]; simp [scanString_cons]
    · rw [if_neg h2]
      by_cases h3 : b = 0x0D
      · rw [if_pos h3]; simp [scanString_cons]
      · rw [if_neg h3]
        by_cases h4 : b = 0x09
        · rw [if_pos h4]; simp [scanString_cons]
        · rw [if_neg h4]
          have e1 : isHex (hex (b >>> 4)) = true :=
            isHex_hex _ (by rw [Nat.shiftRight_eq_div_pow]; omega)
          have e2 : isHex (hex (b &&& 0xF)) = true :=
            isHex_hex _ (by rw [and_15]; omega)
          have e0 : isHex 48 = true := rfl
          simp [scanString_cons, e1, e2, e0]

theorem stringBody_nil (n : Nat) : stringBody n [] = [] := by
  cases n <;> rfl

theorem hex_land_2028 (r : Nat) (h : r = 0x2028 ∨ r = 0x2029) :
    isHex (hex (r &&& 0xF)) = true ∧ getu4 ([0x5C, 0x75, 0x32, 0x30, 0x32, hex (r &&& 0xF)]) = some r := by
  rcases h with rfl | rfl <;> exact ⟨rfl, rfl⟩

/-- The scanner reads a string that `encodeState.string` wrote up to its
closing quote, whatever the string was. -/
theorem scanString_stringBody (n : Nat) :
    ∀ (s tail : GoString), s.length ≤ n →
      scanString (stringBody n s ++ 0x22 :: tail) = some (stringBody n s, tail) := by
  induction n with
  | zero =>
    intro s tail hs
    simp [stringBody, scanString_cons]
  | succ n ih =>
    intro s tail hs
    cases s with
    | nil => simp [stringBody, scanString_cons]
    | cons b rest =>
      have hrest : rest.length ≤ n := by simpa using hs
      simp only [stringBody]
      by_cases hb : b < 0x80
      · rw [if_pos hb]
        by_cases hsafe : htmlSafeSet b = true
        · have hp := htmlSafeSet_plain b hsafe
          rw [if_pos hsafe, List.append_assoc,
            scanString_plain [b] _ (by intro x hx; simp at hx; subst hx; omega), ih rest tail hrest]
          simp
        · rw [if_neg hsafe, List.append_assoc, scanString_escapeByte b hb, ih rest tail hrest]
          simp
      · rw [if_neg hb]
        by_cases hv : (DecodeRune (b :: rest)).1 = RuneError ∧ (DecodeRune (b :: rest)).2 = 1
        · rw [if_pos hv]
          have e : isHex 0x66 = true ∧ isHex 0x64 = true := ⟨rfl, rfl⟩
          simp [scanString_cons, e, ih rest tail hrest]
        · rw [if_neg hv]
          obtain ⟨p, t, hpt, hlen, h2, hge, _, _⟩ := DecodeRune_valid b rest (by omega) hv
          have htake : (b :: rest).take (DecodeRune (b :: rest)).2 = p := by
            rw [← hlen, hpt]; simp
          have hdrop : (b :: rest).drop (DecodeRune (b :: rest)).2 = t := by
            rw [← hlen, hpt]; simp
          have ht : t.length ≤ n := by
            have := congrArg List.length hpt
            simp at this; omega
          rw [htake, hdrop]
          by_cases hls : (DecodeRune (b :: rest)).1 = 0x2028 ∨ (DecodeRune (b :: rest)).1 = 0x2029
          · rw [if_pos hls]
            have e := (hex_land_2028 _ hls).1
            have e' : isHex 0x32 = true ∧ isHex 0x30 = true := ⟨rfl, rfl⟩
            simp [scanString_cons, e, e', ih t tail ht]
          · rw [if_neg hls, List.append_assoc,
              scanString_plain p _ (by intro x hx; have := hge x hx; omega), ih t tail ht]
            simp

theorem unquoteU_length (s w r : GoString) (h : unquoteU s = some (w, r)) :
    r.length ≤ s.length - 6 := by
  unfold unquoteU at h
  split at h
  · contradiction
  · simp only [] at h
    split at h
    · split at h <;>
      · simp only [Option.some.injEq, Prod.mk.injEq] at h
        obtain ⟨_, rfl⟩ := h
        simp only [List.length_drop]
        omega
    · simp only [Option.some.injEq, Prod.mk.injEq] at h
      obtain ⟨_, rfl⟩ := h
      simp only [List.length_drop]
      omega

theorem unquoteStep_length (c : Nat) (rest w r : GoString)
    (h : unquoteStep c rest = some (w, r)) : r.length ≤ rest.length := by
  unfold unquoteStep at h
  split at h
  · split at h
    · contradiction
    · split at h
      · have := unquoteU_length _ _ _ h
        simp only [List.length_cons] at this ⊢
        omega
      · cases hesc : unquoteEscape _ <;> rw [hesc] at h <;> simp at h
        obtain ⟨_, rfl⟩ := h
        simp
  · split at h
    · contradiction
    · split at h
      · simp only [Option.some.injEq, Prod.mk.injEq] at h
        obtain ⟨_, rfl⟩ := h
        exact le_refl _
      · simp only [Option.some.injEq, Prod.mk.injEq] at h
        obtain ⟨_, rfl⟩ := h
        have hpos := DecodeRune_size_pos c rest
        simp only [List.length_drop, List.length_cons]
        omega
theorem unquoteLoop_fuel (n : Nat) :
    ∀ (g g' : Nat) (body : GoString), body.length ≤ n → n ≤ g → n ≤ g' →
      unquoteLoop g body = unquoteLoop g' body := by
  induction n with
  | zero =>
    intro g g' body hb _ _
    have : body = [] := List.length_eq_zero.mp (by omega)
    subst this
    cases g <;> cases g' <;> rfl
  | succ n ih =>
    intro g g' body hb hg hg'
    cases body with
    | nil => cases g <;> cases g' <;> rfl
    | cons c rest =>
      obtain ⟨g0, rfl⟩ : ∃ g0, g = g0 + 1 := ⟨g - 1, by omega⟩
      obtain ⟨g1, rfl⟩ : ∃ g1, g' = g1 + 1 := ⟨g' - 1, by omega⟩
      have hrest : rest.length ≤ n := by simpa using hb
      simp only [unquoteLoop]
      cases hstep : unquoteStep c rest with
      | none => rfl
      | some wr =>
        obtain ⟨w, r⟩ := wr
        have := unquoteStep_length c rest w r hstep
        simp only []
        rw [ih g0 g1 r (by omega) (by omega) (by omega)]

/-- The loop of `unquoteBytes` with exactly the fuel its input needs. -/
theorem unquoteLoop_eq (g : Nat) (body : GoString) (h : body.length ≤ g) :
    unquoteLoop g body = unquoteLoop body.length body :=
  unquoteLoop_fuel body.length g body.length body (le_refl _) h (le_refl _)

theorem unquoteLoop_cons (c : Nat) (rest w r : GoString) (g : Nat) (hg : rest.length < g)
    (h : unquoteStep c rest = some (w, r)) :
    unquoteLoop g (c :: rest) = (unquoteLoop r.length r).map fun t => w ++ t := by
  obtain ⟨g0, rfl⟩ : ∃ g0, g = g0 + 1 := ⟨g - 1, by omega⟩
  have := unquoteStep_length c rest w r h
  simp only [unquoteLoop, h]
  rw [unquoteLoop_eq g0 r (by omega)]

theorem unquoteLoop_step (c : Nat) (rest w r : GoString)
    (h : unquoteStep c rest = some (w, r)) :
    unquoteLoop (c :: rest).length (c :: rest) = (unquoteLoop r.length r).map fun t => w ++ t :=
  unquoteLoop_cons c rest w r _ (by simp) h

theorem unquoteStep_ascii (c : Nat) (rest : GoString) (h1 : 0x20 ≤ c) (h2 : c < 0x80)
    (h3 : c ≠ 0x22) (h4 : c ≠ 0x5C) : unquoteStep c rest = some ([c], rest) := by
  unfold unquoteStep
  rw [if_neg h4, if_neg (by omega), if_pos h2]

theorem unquoteStep_rune (c : Nat) (rest : GoString) (h : 0x80 ≤ c) :
    unquoteStep c rest
      = some (EncodeRune (DecodeRune (c :: rest)).1, (c :: rest).drop (DecodeRune (c :: rest)).2) := by
  unfold unquoteStep
  rw [if_neg (by omega), if_neg (by omega), if_neg (by omega)]

/-- The first loop of `unquoteBytes` only skips bytes that the second loop
copies: unquoting the whole literal is unquoting what follows the clean prefix
and putting the prefix in front. -/
theorem unquoteLoop_cleanPrefix (n : Nat) :
    ∀ body : GoString, body.length ≤ n →
      cleanPrefix n body ≤ body.length
      ∧ unquoteLoop body.length body
        = (unquoteLoop (body.drop (cleanPrefix n body)).length
            (body.drop (cleanPrefix n body))).map
            fun t => body.take (cleanPrefix n body) ++ t := by
  induction n with
  | zero =>
    intro body hb
    have : body = [] := List.length_eq_zero.mp (by omega)
    subst this
    simp [cleanPrefix, unquoteLoop]
  | succ n ih =>
    intro body hb
    cases body with
    | nil => simp [cleanPrefix, unquoteLoop]
    | cons c rest =>
      have hrest : rest.length ≤ n := by simpa using hb
      simp only [cleanPrefix]
      by_cases h1 : c = 0x5C ∨ c = 0x22 ∨ c < 0x20
      · rw [if_pos h1]
        simp
      · rw [if_neg h1]
        by_cases h2 : c < 0x80
        · rw [if_pos h2]
          obtain ⟨ihle, iheq⟩ := ih rest hrest
          refine ⟨by simp only [List.length_cons]; omega, ?_⟩
          rw [unquoteLoop_step c rest [c] rest
            (unquoteStep_ascii c rest (by omega) h2 (by omega) (by omega)), iheq]
          rw [Nat.add_comm 1, List.drop_succ_cons, List.take_succ_cons]
          cases unquoteLoop _ (List.drop (cleanPrefix n rest) rest) <;> simp
        · rw [if_neg h2]
          by_cases hv : (DecodeRune (c :: rest)).1 = RuneError ∧ (DecodeRune (c :: rest)).2 = 1
          · rw [if_pos hv]
            simp
          · rw [if_neg hv]
            obtain ⟨p, t, hpt, hlen, hp2, hge, henc, hdec⟩ :=
              DecodeRune_valid c rest (by omega) hv
            have ht : t.length ≤ n := by
              have := congrArg List.length hpt
              simp at this; omega
            obtain ⟨ihle, iheq⟩ := ih t ht
            have hdrop : (c :: rest).drop (DecodeRune (c :: rest)).2 = t := by
              rw [← hlen, hpt]; simp
            rw [hdrop, unquoteLoop_step c rest _ _ (unquoteStep_rune c rest (by omega)), henc,
              hdrop, iheq, ← hlen, hpt]
            refine ⟨by simp only [List.length_append]; omega, ?_⟩
            rw [List.drop_append, List.take_append]
            cases unquoteLoop _ (List.drop (cleanPrefix n t) t) <;> simp

/-- Function `unquoteBytes` is its second loop run over the whole literal. -/
theorem unquoteBytes_eq (body : GoString) :
    unquoteBytes body = unquoteLoop body.length body := by
  obtain ⟨hle, heq⟩ := unquoteLoop_cleanPrefix body.length body (le_refl _)
  unfold unquoteBytes
  simp only []
  by_cases hr : cleanPrefix body.length body = body.length
  · rw [if_pos hr, heq, hr]
    simp [unquoteLoop]
  · rw [if_neg hr, heq, unquoteLoop_eq body.length _ (by simp)]

theorem unquoteStep_escape (e b : Nat) (rest1 : GoString) (he : e ≠ 0x75)
    (h : unquoteEscape e = some b) : unquoteStep 0x5C (e :: rest1) = some ([b], rest1) := by
  unfold unquoteStep
  simp only [if_true, if_neg he, h, Option.map_some']

theorem unquoteStep_u (rest1 : GoString) :
    unquoteStep 0x5C (0x75 :: rest1) = unquoteU (0x5C :: 0x75 :: rest1) := by
  unfold unquoteStep
  simp only [if_true]

theorem unquoteU_plain (s : GoString) (rr : Nat) (h : getu4 s = some rr)
    (hns : ¬ (0xD800 ≤ rr ∧ rr < 0xE000)) : unquoteU s = some (EncodeRune rr, s.drop 6) := by
  unfold unquoteU
  simp only [h, if_neg hns]

theorem getu4_hex (a b c d : Nat) (ha : a < 16) (hb : b < 16) (hc : c < 16) (hd : d < 16)
    (X : GoString) :
    getu4 (0x5C :: 0x75 :: hex a :: hex b :: hex c :: hex d :: X)
      = some (((a * 16 + b) * 16 + c) * 16 + d) := by
  simp only [getu4, hexVal_hex a ha, hexVal_hex b hb, hexVal_hex c hc, hexVal_hex d hd]

theorem EncodeRune_ascii (b : Nat) (h : b < 0x80) : EncodeRune b = [b] := by
  unfold EncodeRune byte
  rw [if_pos (by omega)]
  congr 1
  omega

/-- An escape written by the encoder for an ASCII byte is unquoted to that
byte in one round. -/
theorem unquoteStep_escapeByte (b : Nat) (hb : b < 0x80) :
    ∃ e, escapeByte b = 0x5C :: e ∧ ∀ X, unquoteStep 0x5C (e ++ X) = some ([b], X) := by
  unfold escapeByte
  by_cases h1 : b = 0x5C ∨ b = 0x22
  · rw [if_pos h1]
    refine ⟨[b], rfl, fun X => ?_⟩
    rcases h1 with rfl | rfl <;> exact unquoteStep_escape _ _ X (by decide) rfl
  · rw [if_neg h1]
    by_cases h2 : b = 0x0A
    · rw [if_pos h2]; subst h2
      exact ⟨[0x6E], rfl, fun X => unquoteStep_escape _ _ X (by decide) rfl⟩
    · rw [if_neg h2]
      by_cases h3 : b = 0x0D
      · rw [if_pos h3]; subst h3
        exact ⟨[0x72], rfl, fun X => unquoteStep_escape _ _ X (by decide) rfl⟩
      · rw [if_neg h3]
        by_cases h4 : b = 0x09
        · rw [if_pos h4]; subst h4
          exact ⟨[0x74], rfl, fun X => unquoteStep_escape _ _ X (by decide) rfl⟩
        · rw [if_neg h4]
          refine ⟨[0x75, 0x30, 0x30, hex (b >>> 4), hex (b &&& 0xF)], rfl, fun X => ?_⟩
          have hhi : b >>> 4 < 16 := by rw [Nat.shiftRight_eq_div_pow]; omega
          have hlo : b &&& 0xF < 16 := by rw [and_15]; omega
          have hg := getu4_hex 0 0 (b >>> 4) (b &&& 0xF) (by omega) (by omega) hhi hlo X
          have hval : ((0 * 16 + 0) * 16 + b >>> 4) * 16 + (b &&& 0xF) = b := by
            rw [Nat.shiftRight_eq_div_pow, and_15]; omega
          rw [hval, show hex 0 = 48 from rfl] at hg
          show unquoteStep 0x5C (0x75 :: 0x30 :: 0x30 :: hex (b >>> 4) :: hex (b &&& 0xF) :: X) = _
          rw [unquoteStep_u, unquoteU_plain _ b hg (by omega), EncodeRune_ascii b hb]
          rfl

theorem getu4_2028 (r : Nat) (h : r = 0x2028 ∨ r = 0x2029) (X : GoString) :
    getu4 (0x5C :: 0x75 :: 0x32 :: 0x30 :: 0x32 :: hex (r &&& 0xF) :: X) = some r := by
  rcases h with rfl | rfl <;> rfl

theorem replaceInvalid_nil (n : Nat) : replaceInvalid n [] = [] := by
  cases n <;> rfl

/-- Unquoting what `encodeState.string` wrote for a string gives the string
coerced to valid UTF-8. -/
theorem unquoteLoop_stringBody (k : Nat) :
    ∀ (s : GoString) (n m : Nat), s.length ≤ k → k ≤ n → k ≤ m →
      unquoteLoop (stringBody m s).length (stringBody m s) = some (replaceInvalid n s) := by
  induction k with
  | zero =>
    intro s n m hs _ _
    have : s = [] := List.length_eq_zero.mp (by omega)
    subst this
    rw [stringBody_nil, replaceInvalid_nil]; rfl
  | succ k ih =>
    intro s n m hs hn hm
    cases s with
    | nil => rw [stringBody_nil, replaceInvalid_nil]; rfl
    | cons b rest =>
      obtain ⟨n0, rfl⟩ : ∃ n0, n = n0 + 1 := ⟨n - 1, by omega⟩
      obtain ⟨m0, rfl⟩ : ∃ m0, m = m0 + 1 := ⟨m - 1, by omega⟩
      have hrest : rest.length ≤ k := by simpa using hs
      simp only [replaceInvalid]
      simp only [stringBody]
      by_cases hb : b < 0x80
      · rw [decode_ascii b rest hb]
        have IH := ih rest n0 m0 hrest (by omega) (by omega)
        have hne : ¬ ((b, 1).1 = RuneError ∧ (b, 1).2 = 1) := by
          simp only [RuneError]; omega
        rw [if_pos hb, if_neg hne]
        by_cases hsafe : htmlSafeSet b = true
        · have hp := htmlSafeSet_plain b hsafe
          rw [if_pos hsafe, List.singleton_append,
            unquoteLoop_step b _ [b] _ (unquoteStep_ascii b _ hp.1 hp.2.1 hp.2.2.1 hp.2.2.2), IH]
          rfl
        · obtain ⟨e, he, hstep⟩ := unquoteStep_escapeByte b hb
          rw [if_neg hsafe, he, List.cons_append, unquoteLoop_step 0x5C _ [b] _ (hstep _), IH]
          rfl
      · rw [if_neg hb]
        by_cases hv : (DecodeRune (b :: rest)).1 = RuneError ∧ (DecodeRune (b :: rest)).2 = 1
        · rw [if_pos hv, if_pos hv]
          have IH := ih rest n0 m0 hrest (by omega) (by omega)
          simp only [List.cons_append, List.nil_append]
          have hstep : unquoteStep 0x5C (0x75 :: 0x66 :: 0x66 :: 0x66 :: 0x64 :: stringBody m0 rest)
              = some ([0xEF, 0xBF, 0xBD], stringBody m0 rest) := by
            have hg : getu4 (0x5C :: 0x75 :: 0x66 :: 0x66 :: 0x66 :: 0x64 :: stringBody m0 rest)
                = some 0xFFFD := rfl
            rw [unquoteStep_u, unquoteU_plain _ 0xFFFD hg (by omega)]
            rfl
          rw [unquoteLoop_step 0x5C _ _ _ hstep, IH]
          rfl
        · rw [if_neg hv, if_neg hv]
          obtain ⟨p, t, hpt, hlen, hp2, hge, henc, hdec⟩ := DecodeRune_valid b rest (by omega) hv
          have ht : t.length ≤ k := by
            have := congrArg List.length hpt
            simp at this; omega
          have htake : (b :: rest).take (DecodeRune (b :: rest)).2 = p := by
            rw [← hlen, hpt]; simp
          have hdrop : (b :: rest).drop (DecodeRune (b :: rest)).2 = t := by
            rw [← hlen, hpt]; simp
          have IH := ih t n0 m0 ht (by omega) (by omega)
          rw [htake, hdrop]
          by_cases hls : (DecodeRune (b :: rest)).1 = 0x2028 ∨ (DecodeRune (b :: rest)).1 = 0x2029
          · rw [if_pos hls]
            have hns : ¬ (0xD800 ≤ (DecodeRune (b :: rest)).1
                ∧ (DecodeRune (b :: rest)).1 < 0xE000) := by
              rcases hls with h | h <;> rw [h] <;> omega
            simp only [List.cons_append, List.nil_append]
            have hstep : unquoteStep 0x5C (0x75 :: 0x32 :: 0x30 :: 0x32
                :: hex ((DecodeRune (b :: rest)).1 &&& 0xF) :: stringBody m0 t)
                = some (p, stringBody m0 t) := by
              rw [unquoteStep_u, unquoteU_plain _ _ (getu4_2028 _ hls _) hns, henc]
              rfl
            rw [unquoteLoop_step 0x5C _ p _ hstep, IH]
            rfl
          · rw [if_neg hls]
            cases p with
            | nil => simp at hp2
            | cons p0 ptail =>
              have hp0 : p0 = b := by
                have := congrArg List.head? hpt
                simpa using this.symm
              subst hp0
              have hstep : unquoteStep p0 (ptail ++ stringBody m0 t)
                  = some (p0 :: ptail, stringBody m0 t) := by
                rw [unquoteStep_rune p0 _ (by omega)]
                have hd' := hdec (stringBody m0 t)
                rw [List.cons_append] at hd'
                rw [hd', henc, ← hlen]
                simp
              rw [List.cons_append, unquoteLoop_step p0 _ _ _ hstep, IH]
              rfl

/-- Coercion to valid UTF-8 leaves a valid UTF-8 string as it is. -/
theorem replaceInvalid_valid (k : Nat) :
    ∀ (s : GoString) (n m : Nat), s.length ≤ k → k ≤ n → k ≤ m → validAux n s = true →
      replaceInvalid m s = s := by
  induction k with
  | zero =>
    intro s n m hs _ _ _
    have : s = [] := List.length_eq_zero.mp (by omega)
    subst this
    exact replaceInvalid_nil m
  | succ k ih =>
    intro s n m hs hn hm hvalid
    cases s with
    | nil => exact replaceInvalid_nil m
    | cons b rest =>
      obtain ⟨n0, rfl⟩ : ∃ n0, n = n0 + 1 := ⟨n - 1, by omega⟩
      obtain ⟨m0, rfl⟩ : ∃ m0, m = m0 + 1 := ⟨m - 1, by omega⟩
      have hrest : rest.length ≤ k := by simpa using hs
      simp only [validAux] at hvalid
      simp only [replaceInvalid]
      by_cases hv : (DecodeRune (b :: rest)).1 = RuneError ∧ (DecodeRune (b :: rest)).2 = 1
      · rw [if_pos hv] at hvalid
        exact absurd hvalid (by simp)
      · rw [if_neg hv] at hvalid
        have hpos := DecodeRune_size_pos b rest
        rw [if_neg hv, ih _ n0 m0 (by simp only [List.length_drop, List.length_cons]; omega)
          (by omega) (by omega) hvalid]
        exact List.take_append_drop _ _

theorem coerced_valid (s : GoString) (h : ValidString s = true) : coerced s = s :=
  replaceInvalid_valid s.length s s.length s.length (le_refl _) (le_refl _) (le_refl _) h

/-- A JSON string literal written by `encodeState.string` stands for the
string coerced to valid UTF-8. -/
theorem unquoteBytes_stringBody (s : GoString) :
    unquoteBytes (stringBody s.length s) = some (coerced s) := by
  rw [unquoteBytes_eq]
  exact unquoteLoop_stringBody s.length s s.length s.length (le_refl _) (le_refl _) (le_refl _)

/-! ## The envelope through `Marshal` and `Unmarshal` -/

theorem skipSpace_of_not_space (c : Nat) (rest : GoString) (h : isSpace c = false) :
    skipSpace (c :: rest) = c :: rest := by
  simp [skipSpace, h]

theorem skipSpace_quote (rest : GoString) : skipSpace (0x22 :: rest) = 0x22 :: rest :=
  skipSpace_of_not_space 0x22 rest rfl

theorem skipSpace_colon (rest : GoString) : skipSpace (0x3A :: rest) = 0x3A :: rest :=
  skipSpace_of_not_space 0x3A rest rfl

theorem skipSpace_comma (rest : GoString) : skipSpace (0x2C :: rest) = 0x2C :: rest :=
  skipSpace_of_not_space 0x2C rest rfl

theorem skipSpace_close (rest : GoString) : skipSpace (0x7D :: rest) = 0x7D :: rest :=
  skipSpace_of_not_space 0x7D rest rfl

theorem scanValue_string (f depth n : Nat) (s tail : GoString) (hs : s.length ≤ n) :
    scanValue (f + 1) depth (0x22 :: (stringBody n s ++ 0x22 :: tail))
      = some (Value.string (stringBody n s), tail) := by
  simp [scanValue, scanString_stringBody n s tail hs]

theorem scanMembers_more (f depth n : Nat) (key s more : GoString)
    (hkey : ∀ x ∈ key, 0x20 ≤ x ∧ x ≠ 0x22 ∧ x ≠ 0x5C) (hs : s.length ≤ n) :
    scanMembers (f + 2) depth
        (0x22 :: (key ++ 0x22 :: 0x3A :: 0x22 :: (stringBody n s ++ 0x22 :: 0x2C :: 0x22 :: more)))
      = (scanMembers (f + 1) depth (0x22 :: more)).map
          fun m => ((key, Kind.string (stringBody n s)) :: m.1, m.2) := by
  rw [scanMembers, scanString_plain key _ hkey, scanString_quote]
  simp only [Option.map_some', List.append_nil, skipSpace_colon, skipSpace_quote,
    scanValue_string f depth n s _ hs, skipSpace_comma]
  rfl

theorem scanMembers_last (f depth n : Nat) (key s tail : GoString)
    (hkey : ∀ x ∈ key, 0x20 ≤ x ∧ x ≠ 0x22 ∧ x ≠ 0x5C) (hs : s.length ≤ n) :
    scanMembers (f + 2) depth
        (0x22 :: (key ++ 0x22 :: 0x3A :: 0x22 :: (stringBody n s ++ 0x22 :: 0x7D :: tail)))
      = some ([(key, Kind.string (stringBody n s))], tail) := by
  rw [scanMembers, scanString_plain key _ hkey, scanString_quote]
  simp only [Option.map_some', List.append_nil, skipSpace_colon, skipSpace_quote,
    scanValue_string f depth n s _ hs, skipSpace_close]
  rfl

/-- The bytes `Marshal` writes, byte by byte around the three string bodies. -/
theorem Marshal_bytes (m : chatmessage) :
    Marshal m = .ok (0x7B :: 0x22 :: (lit "message" ++ 0x22 :: 0x3A :: 0x22 ::
      (stringBody m.Message.length m.Message ++ 0x22 :: 0x2C :: 0x22 ::
        (lit "senderid" ++ 0x22 :: 0x3A :: 0x22 ::
          (stringBody m.SenderID.length m.SenderID ++ 0x22 :: 0x2C :: 0x22 ::
            (lit "sendername" ++ 0x22 :: 0x3A :: 0x22 ::
              (stringBody m.SenderName.length m.SenderName ++ 0x22 :: 0x7D :: []))))))) := by
  have h1 : lit "\x7b\"message\":" = 0x7B :: 0x22 :: (lit "message" ++ [0x22, 0x3A]) := rfl
  have h2 : lit ",\"senderid\":" = 0x2C :: 0x22 :: (lit "senderid" ++ [0x22, 0x3A]) := rfl
  have h3 : lit ",\"sendername\":" = 0x2C :: 0x22 :: (lit "sendername" ++ [0x22, 0x3A]) := rfl
  have h4 : lit "\x7d" = [0x7D] := rfl
  simp only [Marshal, encodeString, h1, h2, h3, h4, List.append_assoc, List.cons_append,
    List.nil_append]

theorem lit_plain_message : ∀ x ∈ lit "message", 0x20 ≤ x ∧ x ≠ 0x22 ∧ x ≠ 0x5C := by decide
theorem lit_plain_senderid : ∀ x ∈ lit "senderid", 0x20 ≤ x ∧ x ≠ 0x22 ∧ x ≠ 0x5C := by decide
theorem lit_plain_sendername : ∀ x ∈ lit "sendername", 0x20 ≤ x ∧ x ≠ 0x22 ∧ x ≠ 0x5C := by
  decide

theorem scanValue_object (f depth : Nat) (rest : GoString) (hd : depth < maxNestingDepth) :
    scanValue (f + 1) depth (0x7B :: 0x22 :: rest)
      = (scanMembers f (depth + 1) (0x22 :: rest)).map fun m => (Value.object m.1, m.2) := by
  rw [scanValue, if_pos rfl, if_neg (by omega), skipSpace_quote]

/-- The scanner reads what `Marshal` wrote as an object of three members. -/
theorem scanTop_Marshal (m : chatmessage) (data : GoString) (h : Marshal m = .ok data) :
    scanTop data = some (Value.object
      [(lit "message", Kind.string (stringBody m.Message.length m.Message)),
       (lit "senderid", Kind.string (stringBody m.SenderID.length m.SenderID)),
       (lit "sendername", Kind.string (stringBody m.SenderName.length m.SenderName))]) := by
  rw [Marshal_bytes] at h
  injection h with h
  subst h
  unfold scanTop
  rw [skipSpace_of_not_space 0x7B _ rfl]
  generalize hF : (2 * List.length _ + 1) = F
  obtain ⟨f, rfl⟩ : ∃ f, F = f + 5 := ⟨F - 5, by simp at hF; omega⟩
  rw [scanValue_object (f + 4) 0 _ (by decide),
    scanMembers_more (f + 2) 1 _ _ _ _ lit_plain_message (le_refl _),
    scanMembers_more (f + 1) 1 _ _ _ _ lit_plain_senderid (le_refl _),
    scanMembers_last f 1 _ _ _ _ lit_plain_sendername (le_refl _)]
  rfl

/-- What `Marshal` writes for an envelope, `Unmarshal` reads back with no
error as the envelope of the three strings coerced to valid UTF-8. -/
theorem Unmarshal_Marshal_coerced (m : chatmessage) (data : GoString)
    (h : Marshal m = .ok data) :
    Unmarshal data { Message := [], SenderID := [], SenderName := [] }
      = ({ Message := coerced m.Message, SenderID := coerced m.SenderID,
           SenderName := coerced m.SenderName }, none) := by
  have k1 : unquoteBytes (lit "message") = some (lit "message") := by decide
  have k2 : unquoteBytes (lit "senderid") = some (lit "senderid") := by decide
  have k3 : unquoteBytes (lit "sendername") = some (lit "sendername") := by decide
  have f1 : findField (lit "message") = some Field.Message := by decide
  have f2 : findField (lit "senderid") = some Field.SenderID := by decide
  have f3 : findField (lit "sendername") = some Field.SenderName := by decide
  unfold Unmarshal
  rw [scanTop_Marshal m data h]
  simp only [List.foldl, storeMember, k1, k2, k3, f1, f2, f3, unquoteBytes_stringBody,
    setField]

/-- Round trip of the envelope: what `Marshal` writes for an envelope of three
valid UTF-8 strings, `Unmarshal` reads back as that envelope, with no error. -/
theorem Unmarshal_Marshal (m : chatmessage) (data : GoString) (h : Marshal m = .ok data)
    (h1 : ValidString m.Message = true) (h2 : ValidString m.SenderID = true)
    (h3 : ValidString m.SenderName = true) :
    Unmarshal data { Message := [], SenderID := [], SenderName := [] } = (m, none) := by
  rw [Unmarshal_Marshal_coerced m data h, coerced_valid _ h1, coerced_valid _ h2,
    coerced_valid _ h3]

/-! ## The bounds are never used up -/

theorem skipSpace_length (s : GoString) : (skipSpace s).length ≤ s.length := by
  induction s with
  | nil => simp [skipSpace]
  | cons c rest ih =>
    simp only [skipSpace]
    split
    · simp only [List.length_cons]; omega
    · exact le_refl _

theorem skipDigits_length (s : GoString) : (skipDigits s).length ≤ s.length := by
  induction s with
  | nil => simp [skipDigits]
  | cons c rest ih =>
    simp only [skipDigits]
    split
    · simp only [List.length_cons]; omega
    · exact le_refl _

theorem scanString_length (n : Nat) :
    ∀ (s b r : GoString), s.length ≤ n → scanString s = some (b, r) → r.length < s.length := by
  induction n with
  | zero =>
    intro s b r hs h
    have : s = [] := List.length_eq_zero.mp (by omega)
    subst this
    simp [scanString] at h
  | succ n ih =>
    intro s b r hs h
    cases s with
    | nil => simp [scanString] at h
    | cons c rest =>
      rw [scanString_cons] at h
      have hrest : rest.length ≤ n := by simpa using hs
      split at h
      · simp only [Option.some.injEq, Prod.mk.injEq] at h
        obtain ⟨_, rfl⟩ := h
        simp
      · split at h
        · split at h
          · contradiction
          · rename_i e rest1
            split at h
            · cases hr : scanString rest1 with
              | none => rw [hr] at h; simp at h
              | some br =>
                rw [hr] at h
                simp only [Option.map_some', Option.some.injEq, Prod.mk.injEq] at h
                obtain ⟨_, rfl⟩ := h
                have := ih rest1 br.1 br.2 (by simp at hrest; omega) hr
                simp only [List.length_cons]; omega
            · split at h
              · split at h
                · rename_i h1 h2 h3 h4 rest2
                  split at h
                  · cases hr : scanString rest2 with
                    | none => rw [hr] at h; simp at h
                    | some br =>
                      rw [hr] at h
                      simp only [Option.map_some', Option.some.injEq, Prod.mk.injEq] at h
                      obtain ⟨_, rfl⟩ := h
                      have := ih rest2 br.1 br.2 (by simp at hrest; omega) hr
                      simp only [List.length_cons]; omega
                  · contradiction
                · contradiction
              · contradiction
        · split at h
          · contradiction
          · cases hr : scanString rest with
            | none => rw [hr] at h; simp at h
            | some br =>
              rw [hr] at h
              simp only [Option.map_some', Option.some.injEq, Prod.mk.injEq] at h
              obtain ⟨_, rfl⟩ := h
              have := ih rest br.1 br.2 hrest hr
              simp only [List.length_cons]; omega

theorem scanDigits_length (x r : GoString)
    (h : (match x with
      | d :: rest => if isDigit d then some (skipDigits rest) else none
      | [] => none) = some r) : r.length < x.length := by
  cases x with
  | nil => contradiction
  | cons d r0 =>
    simp only [] at h
    split at h
    · simp only [Option.some.injEq] at h
      subst h
      have := skipDigits_length r0
      simp only [List.length_cons]; omega
    · contradiction

theorem scanFracExp_length (s r : GoString) (h : scanFracExp s = some r) :
    r.length ≤ s.length := by
  unfold scanFracExp at h
  simp only [Option.bind_eq_some] at h
  obtain ⟨s1, h1, h2⟩ := h
  have l1 : s1.length ≤ s.length := by
    rcases s with _ | ⟨c, _ | ⟨d, rest⟩⟩
    · simp only [Option.some.injEq] at h1
      subst h1; exact le_refl _
    · by_cases hc : c = 0x2E
      · subst hc; contradiction
      · split at h1
        · rename_i heq; injection heq with hc' _; exact absurd hc' hc
        · rename_i heq; injection heq with hc' _; exact absurd hc' hc
        · simp only [Option.some.injEq] at h1
          subst h1; exact le_refl _
    · by_cases hc : c = 0x2E
      · subst hc
        simp only [] at h1
        split at h1
        · simp only [Option.some.injEq] at h1
          subst h1
          have := skipDigits_length rest
          simp only [List.length_cons]; omega
        · contradiction
      · split at h1
        · rename_i heq; injection heq with hc' _; exact absurd hc' hc
        · rename_i heq; injection heq with hc' _; exact absurd hc' hc
        · simp only [Option.some.injEq] at h1
          subst h1; exact le_refl _
  have l2 : r.length ≤ s1.length := by
    cases s1 with
    | nil =>
      simp only [Option.some.injEq] at h2
      subst h2; exact le_refl _
    | cons e rest =>
      simp only [] at h2
      split at h2
      · have hle : (match rest with
            | sign :: r => if sign = 43 ∨ sign = 45 then r else rest
            | [] => rest).length ≤ rest.length := by
          split
          · split
            · simp
            · exact le_refl _
          · exact le_refl _
        have := scanDigits_length _ r h2
        simp only [List.length_cons]; omega
      · simp only [Option.some.injEq] at h2
        subst h2; exact le_refl _
  omega

theorem scanNumber_length (s r : GoString) (h : scanNumber s = some r) :
    r.length < s.length := by
  unfold scanNumber at h
  simp only [] at h
  split at h
  · rename_i d rest heq
    have hle : (d :: rest).length ≤ s.length := by
      rw [← heq]
      split
      · simp
      · exact le_refl _
    simp only [List.length_cons] at hle
    split at h
    · have := scanFracExp_length _ _ h
      omega
    · split at h
      · have := scanFracExp_length _ _ h
        have := skipDigits_length rest
        omega
      · contradiction
  · contradiction

theorem scanLiteral_length (word : GoString) :
    ∀ (s r : GoString), scanLiteral word s = some r → r.length ≤ s.length := by
  induction word with
  | nil =>
    intro s r h
    simp only [scanLiteral, Option.some.injEq] at h
    subst h; exact le_refl _
  | cons w ws ih =>
    intro s r h
    cases s with
    | nil => simp [scanLiteral] at h
    | cons c rest =>
      simp only [scanLiteral] at h
      split at h
      · have := ih rest r h
        simp only [List.length_cons]; omega
      · contradiction

theorem scanValue_nil (F depth : Nat) : scanValue F depth [] = none := by
  cases F <;> rfl

theorem scanValueStable_succ (n : Nat) (hE : scanElementsStable n) (hM : scanMembersStable n) :
    scanValueStable (n + 1) := by
  intro s depth F F' hs hF hF'
  cases s with
  | nil => simp [scanValue_nil]
  | cons c rest =>
    obtain ⟨F0, rfl⟩ : ∃ F0, F = F0 + 1 := ⟨F - 1, by omega⟩
    obtain ⟨F1, rfl⟩ : ∃ F1, F' = F1 + 1 := ⟨F' - 1, by omega⟩
    have hrest : rest.length ≤ n := by simpa using hs
    have hsk := skipSpace_length rest
    simp only [scanValue]
    by_cases h1 : c = 0x7B
    · simp only [if_pos h1]
      by_cases hd : depth ≥ maxNestingDepth
      · simp [if_pos hd]
      · simp only [if_neg hd]
        split
        · rename_i r heq
          have hl := congrArg List.length heq
          simp only [List.length_cons] at hl
          refine ⟨rfl, fun v r' h => ?_⟩
          simp only [Option.some.injEq, Prod.mk.injEq] at h
          obtain ⟨_, rfl⟩ := h
          simp only [List.length_cons]; omega
        · obtain ⟨e, l⟩ := hM (skipSpace rest) (depth + 1) F0 F1 (by omega) (by omega) (by omega)
          rw [e]
          refine ⟨rfl, fun v r' h => ?_⟩
          rw [← e] at h
          cases hm : scanMembers F0 (depth + 1) (skipSpace rest) with
          | none => rw [hm] at h; simp at h
          | some mr =>
            rw [hm] at h
            simp only [Option.map_some', Option.some.injEq, Prod.mk.injEq] at h
            obtain ⟨_, rfl⟩ := h
            have := l mr.1 mr.2 hm
            simp only [List.length_cons]; omega
    · simp only [if_neg h1]
      by_cases h2 : c = 0x5B
      · simp only [if_pos h2]
        by_cases hd : depth ≥ maxNestingDepth
        · simp [if_pos hd]
        · simp only [if_neg hd]
          split
          · rename_i r heq
            have hl := congrArg List.length heq
            simp only [List.length_cons] at hl
            refine ⟨rfl, fun v r' h => ?_⟩
            simp only [Option.some.injEq, Prod.mk.injEq] at h
            obtain ⟨_, rfl⟩ := h
            simp only [List.length_cons]; omega
          · obtain ⟨e, l⟩ :=
              hE (skipSpace rest) (depth + 1) F0 F1 (by omega) (by omega) (by omega)
            rw [e]
            refine ⟨rfl, fun v r' h => ?_⟩
            rw [← e] at h
            cases hm : scanElements F0 (depth + 1) (skipSpace rest) with
            | none => rw [hm] at h; simp at h
            | some mr =>
              rw [hm] at h
              simp only [Option.map_some', Option.some.injEq, Prod.mk.injEq] at h
              obtain ⟨_, rfl⟩ := h
              have := l mr hm
              simp only [List.length_cons]; omega
      · simp only [if_neg h2]
        refine ⟨trivial, fun v r' h => ?_⟩
        split at h
        · cases hm : scanString rest with
          | none => rw [hm] at h; simp at h
          | some mr =>
            rw [hm] at h
            simp only [Option.map_some', Option.some.injEq, Prod.mk.injEq] at h
            obtain ⟨_, rfl⟩ := h
            have := scanString_length _ rest mr.1 mr.2 (le_refl _) hm
            simp only [List.length_cons]; omega
        · split at h
          · cases hm : scanNumber (c :: rest) with
            | none => rw [hm] at h; simp at h
            | some mr =>
              rw [hm] at h
              simp only [Option.map_some', Option.some.injEq, Prod.mk.injEq] at h
              obtain ⟨_, rfl⟩ := h
              exact scanNumber_length _ _ hm
          · split at h
            · cases hm : scanLiteral [114, 117, 101] rest with
              | none => rw [hm] at h; simp at h
              | some mr =>
                rw [hm] at h
                simp only [Option.map_some', Option.some.injEq, Prod.mk.injEq] at h
                obtain ⟨_, rfl⟩ := h
                have := scanLiteral_length _ _ _ hm
                simp only [List.length_cons]; omega
            · split at h
              · cases hm : scanLiteral [97, 108, 115, 101] rest with
                | none => rw [hm] at h; simp at h
                | some mr =>
                  rw [hm] at h
                  simp only [Option.map_some', Option.some.injEq, Prod.mk.injEq] at h
                  obtain ⟨_, rfl⟩ := h
                  have := scanLiteral_length _ _ _ hm
                  simp only [List.length_cons]; omega
              · split at h
                · cases hm : scanLiteral [117, 108, 108] rest with
                  | none => rw [hm] at h; simp at h
                  | some mr =>
                    rw [hm] at h
                    simp only [Option.map_some', Option.some.injEq, Prod.mk.injEq] at h
                    obtain ⟨_, rfl⟩ := h
                    have := scanLiteral_length _ _ _ hm
                    simp only [List.length_cons]; omega
                · contradiction

theorem scanElementsStable_succ (n : Nat) (hV : scanValueStable (n + 1))
    (hE : scanElementsStable n) : scanElementsStable (n + 1) := by
  intro s depth F F' hs hF hF'
  obtain ⟨F0, rfl⟩ : ∃ F0, F = F0 + 1 := ⟨F - 1, by omega⟩
  obtain ⟨F1, rfl⟩ : ∃ F1, F' = F1 + 1 := ⟨F' - 1, by omega⟩
  obtain ⟨e, l⟩ := hV s depth F0 F1 hs (by omega) (by omega)
  simp only [scanElements]
  rw [e] at l ⊢
  cases hv : scanValue F1 depth s with
  | none => simp
  | some vr =>
    obtain ⟨v, r⟩ := vr
    have lr := l v r hv
    have hsk := skipSpace_length r
    simp only []
    split
    · rename_i r1 heq
      have hl := congrArg List.length heq
      simp only [List.length_cons] at hl
      have hsk1 := skipSpace_length r1
      obtain ⟨e1, l1⟩ := hE (skipSpace r1) depth F0 F1 (by omega) (by omega) (by omega)
      refine ⟨e1, fun r' h => ?_⟩
      have := l1 r' h
      omega
    · rename_i r1 heq
      have hl := congrArg List.length heq
      simp only [List.length_cons] at hl
      refine ⟨rfl, fun r' h => ?_⟩
      simp only [Option.some.injEq] at h
      subst h
      omega
    · exact ⟨rfl, fun r' h => by contradiction⟩

theorem scanMembers_not_quote (F depth c : Nat) (rest : GoString) (h : c ≠ 0x22) :
    scanMembers F depth (c :: rest) = none := by
  cases F with
  | zero => rfl
  | succ F0 =>
    rw [scanMembers.eq_3]
    intro r hr
    injection hr with hc _
    exact h hc

theorem scanMembers_nil (F depth : Nat) : scanMembers F depth [] = none := by
  cases F with
  | zero => rfl
  | succ F0 =>
    rw [scanMembers.eq_3]
    intro r hr
    contradiction

theorem scanMembersStable_succ (n : Nat) (hV : scanValueStable n)
    (hM : scanMembersStable n) : scanMembersStable (n + 1) := by
  intro s depth F F' hs hF hF'
  obtain ⟨F0, rfl⟩ : ∃ F0, F = F0 + 1 := ⟨F - 1, by omega⟩
  obtain ⟨F1, rfl⟩ : ∃ F1, F' = F1 + 1 := ⟨F' - 1, by omega⟩
  cases s with
  | nil => simp [scanMembers_nil]
  | cons c rest =>
    by_cases hc : c = 0x22
    · subst hc
      have hrest : rest.length ≤ n := by simpa using hs
      simp only [scanMembers]
      cases hk : scanString rest with
      | none => simp
      | some kr =>
        obtain ⟨key, r1⟩ := kr
        have lk := scanString_length _ rest key r1 (le_refl _) hk
        have hsk1 := skipSpace_length r1
        simp only []
        split
        · rename_i r2 heq
          have hl := congrArg List.length heq
          simp only [List.length_cons] at hl
          have hsk2 := skipSpace_length r2
          obtain ⟨e, l⟩ := hV (skipSpace r2) depth F0 F1 (by omega) (by omega) (by omega)
          rw [e] at l ⊢
          cases hv : scanValue F1 depth (skipSpace r2) with
          | none => simp
          | some vr =>
            obtain ⟨v, r3⟩ := vr
            have lr := l v r3 hv
            have hsk3 := skipSpace_length r3
            simp only []
            split
            · rename_i r4 heq4
              have hl4 := congrArg List.length heq4
              simp only [List.length_cons] at hl4
              have hsk4 := skipSpace_length r4
              obtain ⟨e1, l1⟩ :=
                hM (skipSpace r4) depth F0 F1 (by omega) (by omega) (by omega)
              rw [e1]
              refine ⟨rfl, fun m r' h => ?_⟩
              rw [← e1] at h
              cases hm : scanMembers F0 depth (skipSpace r4) with
              | none => rw [hm] at h; simp at h
              | some mr =>
                rw [hm] at h
                simp only [Option.map_some', Option.some.injEq, Prod.mk.injEq] at h
                obtain ⟨_, rfl⟩ := h
                have := l1 mr.1 mr.2 hm
                simp only [List.length_cons]; omega
            · rename_i r4 heq4
              have hl4 := congrArg List.length heq4
              simp only [List.length_cons] at hl4
              refine ⟨rfl, fun m r' h => ?_⟩
              simp only [Option.some.injEq, Prod.mk.injEq] at h
              obtain ⟨_, rfl⟩ := h
              simp only [List.length_cons]; omega
            · exact ⟨rfl, fun m r' h => by contradiction⟩
        · exact ⟨rfl, fun m r' h => by contradiction⟩
    · simp [scanMembers_not_quote _ _ _ _ hc]

/-- The scanner's bound is never used up: with any two bounds from twice the
length of the input on, it gives the same result, and what it leaves is
shorter than what it was given. -/
theorem scan_stable (n : Nat) :
    scanValueStable n ∧ scanElementsStable n ∧ scanMembersStable n := by
  induction n with
  | zero =>
    refine ⟨?_, ?_, ?_⟩
    · intro s depth F F' hs _ _
      have : s = [] := List.length_eq_zero.mp (by omega)
      subst this
      simp [scanValue_nil]
    · intro s depth F F' hs hF hF'
      have : s = [] := List.length_eq_zero.mp (by omega)
      subst this
      obtain ⟨F0, rfl⟩ : ∃ F0, F = F0 + 1 := ⟨F - 1, by omega⟩
      obtain ⟨F1, rfl⟩ : ∃ F1, F' = F1 + 1 := ⟨F' - 1, by omega⟩
      simp [scanElements, scanValue_nil]
    · intro s depth F F' hs _ _
      have : s = [] := List.length_eq_zero.mp (by omega)
      subst this
      simp [scanMembers_nil]
  | succ n ih =>
    obtain ⟨hV, hE, hM⟩ := ih
    have hV' := scanValueStable_succ n hE hM
    exact ⟨hV', scanElementsStable_succ n hV' hE, scanMembersStable_succ n hV hM⟩

/-- The bound `scanTop` gives the scanner is enough: any larger bound gives
the same result. -/
theorem scanValue_fuel (data : GoString) (depth F : Nat) (h : 2 * data.length + 1 ≤ F) :
    scanValue F depth (skipSpace data)
      = scanValue (2 * data.length + 1) depth (skipSpace data) :=
  ((scan_stable data.length).1 (skipSpace data) depth F (2 * data.length + 1)
    (skipSpace_length data) h (le_refl _)).1

theorem drop_rune_length (b : Nat) (rest : GoString) (n : Nat) (h : rest.length ≤ n) :
    ((b :: rest).drop (DecodeRune (b :: rest)).2).length ≤ n := by
  have := DecodeRune_size_pos b rest
  simp only [List.length_drop, List.length_cons]
  omega

/-- The bound of the encoder's loop is not used up: any two bounds from the
length of the string on give the same bytes. -/
theorem stringBody_fuel (n : Nat) :
    ∀ (s : GoString) (m m' : Nat), s.length ≤ n → n ≤ m → n ≤ m' →
      stringBody m s = stringBody m' s := by
  induction n with
  | zero =>
    intro s m m' hs _ _
    have : s = [] := List.length_eq_zero.mp (by omega)
    subst this
    rw [stringBody_nil, stringBody_nil]
  | succ n ih =>
    intro s m m' hs hm hm'
    cases s with
    | nil => rw [stringBody_nil, stringBody_nil]
    | cons b rest =>
      obtain ⟨m0, rfl⟩ : ∃ m0, m = m0 + 1 := ⟨m - 1, by omega⟩
      obtain ⟨m1, rfl⟩ : ∃ m1, m' = m1 + 1 := ⟨m' - 1, by omega⟩
      have hrest : rest.length ≤ n := by simpa using hs
      simp only [stringBody]
      rw [ih rest m0 m1 hrest (by omega) (by omega),
        ih _ m0 m1 (drop_rune_length b rest n hrest) (by omega) (by omega)]

/-- The bound of `validAux` is not used up. -/
theorem validAux_fuel (n : Nat) :
    ∀ (s : GoString) (m m' : Nat), s.length ≤ n → n ≤ m → n ≤ m' →
      validAux m s = validAux m' s := by
  induction n with
  | zero =>
    intro s m m' hs _ _
    have : s = [] := List.length_eq_zero.mp (by omega)
    subst this
    cases m <;> cases m' <;> rfl
  | succ n ih =>
    intro s m m' hs hm hm'
    cases s with
    | nil => cases m <;> cases m' <;> rfl
    | cons b rest =>
      obtain ⟨m0, rfl⟩ : ∃ m0, m = m0 + 1 := ⟨m - 1, by omega⟩
      obtain ⟨m1, rfl⟩ : ∃ m1, m' = m1 + 1 := ⟨m' - 1, by omega⟩
      have hrest : rest.length ≤ n := by simpa using hs
      simp only [validAux]
      rw [ih _ m0 m1 (drop_rune_length b rest n hrest) (by omega) (by omega)]

/-- The bound of the first loop of `unquoteBytes` is not used up. -/
theorem cleanPrefix_fuel (n : Nat) :
    ∀ (s : GoString) (m m' : Nat), s.length ≤ n → n ≤ m → n ≤ m' →
      cleanPrefix m s = cleanPrefix m' s := by
  induction n with
  | zero =>
    intro s m m' hs _ _
    have : s = [] := List.length_eq_zero.mp (by omega)
    subst this
    cases m <;> cases m' <;> rfl
  | succ n ih =>
    intro s m m' hs hm hm'
    cases s with
    | nil => cases m <;> cases m' <;> rfl
    | cons b rest =>
      obtain ⟨m0, rfl⟩ : ∃ m0, m = m0 + 1 := ⟨m - 1, by omega⟩
      obtain ⟨m1, rfl⟩ : ∃ m1, m' = m1 + 1 := ⟨m' - 1, by omega⟩
      have hrest : rest.length ≤ n := by simpa using hs
      simp only [cleanPrefix]
      rw [ih rest m0 m1 hrest (by omega) (by omega),
        ih _ m0 m1 (drop_rune_length b rest n hrest) (by omega) (by omega)]

/-! ## `SubLoop` -/

theorem SubLoop_deliveries_append (cr : ChatRoom) (msgs : List Message) (evs : List SubEvent) :
    SubLoop cr (deliveries msgs ++ evs)
      = (SubLoop cr evs).after (SubLoop cr (deliveries msgs)).effects := by
  induction msgs with
  | nil => simp [deliveries, SubLoop, Run.after]
  | cons m ms ih =>
    simp only [deliveries, List.map_cons, List.cons_append] at ih ⊢
    simp only [SubLoop]
    split
    · exact ih
    · split <;> simp [ih, Run.after]

theorem SubLoop_deliveries_returned (cr : ChatRoom) (msgs : List Message) :
    (SubLoop cr (deliveries msgs)).returned = false := by
  induction msgs with
  | nil => simp [deliveries, SubLoop]
  | cons m ms ih =>
    simp only [deliveries, List.map_cons] at ih ⊢
    simp only [SubLoop]
    split
    · exact ih
    · split <;> simp [ih, Run.after]


theorem SubLoop_deliveries_inbound (cr : ChatRoom) (msgs : List Message) :
    inboundOf (SubLoop cr (deliveries msgs)).effects = msgs.filterMap (forwarded cr) := by
  induction msgs with
  | nil => simp [deliveries, SubLoop, inboundOf]
  | cons m ms ih =>
    simp only [deliveries, List.map_cons] at ih ⊢
    simp only [SubLoop, List.filterMap_cons, forwarded]
    split
    · exact ih
    · split
      · next h => simp [h, Run.after, inboundOf] at ih ⊢; exact ih
      · next h => simp [h, Run.after, inboundOf] at ih ⊢; exact ih

theorem SubLoop_deliveries_no_close (cr : ChatRoom) (msgs : List Message) :
    Effect.closeInbound ∉ (SubLoop cr (deliveries msgs)).effects
      ∧ Effect.log subscriptionClosedLog ∉ (SubLoop cr (deliveries msgs)).effects := by
  induction msgs with
  | nil => simp [deliveries, SubLoop]
  | cons m ms ih =>
    simp only [deliveries, List.map_cons] at ih ⊢
    simp only [SubLoop]
    split
    · exact ih
    · split
      · simp only [Run.after, List.singleton_append, List.mem_cons, not_or]
        refine ⟨⟨by simp, ih.1⟩, ⟨?_, ih.2⟩⟩
        simp only [Effect.log.injEq, subscriptionClosedLog, chatlog.mk.injEq, not_and]
        intro _; decide
      · simp only [Run.after, List.singleton_append, List.mem_cons, not_or]
        exact ⟨⟨by simp, ih.1⟩, ⟨by simp, ih.2⟩⟩

theorem SubLoop_self_echo (cr : ChatRoom) (pre post : List SubEvent) (m : Message)
    (h : m.ReceivedFrom = cr.selfid) :
    SubLoop cr (pre ++ SubEvent.next (.ok m) :: post) = SubLoop cr (pre ++ post) := by
  induction pre with
  | nil => simp [SubLoop, h]
  | cons e es ih =>
    cases e with
    | done => simp [SubLoop]
    | next r =>
      cases r with
      | error e => simp [SubLoop]
      | ok m1 =>
        simp only [List.cons_append, SubLoop]
        split
        · exact ih
        · split <;> simp [ih]

theorem SubLoop_close_only_on_error (cr : ChatRoom) (evs : List SubEvent)
    (h : Effect.closeInbound ∈ (SubLoop cr evs).effects) :
    ∃ msgs e post, evs = deliveries msgs ++ SubEvent.next (.error e) :: post := by
  induction evs with
  | nil => simp [SubLoop] at h
  | cons e es ih =>
    cases e with
    | done => simp [SubLoop] at h
    | next r =>
      cases r with
      | error e => exact ⟨[], e, es, by simp [deliveries]⟩
      | ok m1 =>
        have h1 : Effect.closeInbound ∈ (SubLoop cr es).effects := by
          simp only [SubLoop] at h
          split at h
          · exact h
          · split at h <;> simpa [Run.after] using h
        obtain ⟨msgs, e, post, rfl⟩ := ih h1
        exact ⟨m1 :: msgs, e, post, by simp [deliveries]⟩

theorem SubLoop_close_count (cr : ChatRoom) (evs : List SubEvent) :
    (SubLoop cr evs).effects.count Effect.closeInbound ≤ 1 := by
  induction evs with
  | nil => simp [SubLoop]
  | cons e es ih =>
    cases e with
    | done => simp [SubLoop]
    | next r =>
      cases r with
      | error e => simp [SubLoop, List.count_cons]
      | ok m1 =>
        simp only [SubLoop]
        split
        · exact ih
        · split <;> simpa [Run.after, List.count_cons] using ih


/-- C2: for every finite sequence of raw messages delivered to `SubLoop`, the
messages it sends on `Inbound` are, in delivery order, the deserialized
envelopes of the deliveries whose sender is not the local identity and whose
payload deserializes; a delivery from the local identity leaves no trace at
all (no send, no log), wherever it stands among the events. -/
theorem C2_subloop_forwards_in_order (cr : ChatRoom) (msgs : List Message) :
    inboundOf (SubLoop cr (deliveries msgs)).effects = msgs.filterMap (forwarded cr)
    ∧ ∀ (pre post : List SubEvent) (m : Message), m.ReceivedFrom = cr.selfid →
        SubLoop cr (pre ++ SubEvent.next (.ok m) :: post) = SubLoop cr (pre ++ post) :=
  ⟨SubLoop_deliveries_inbound cr msgs, fun pre post m h => SubLoop_self_echo cr pre post m h⟩

/-- C2 at a concrete input: an echo, a message of another peer and a second
echo; only the other peer's message reaches `Inbound`. -/
theorem C2_subloop_forwards_in_order_witness :
    inboundOf (SubLoop sampleRoom (deliveries
        [{ ReceivedFrom := [1], Data := lit "\x7b\"message\":\"a\"\x7d" },
         { ReceivedFrom := [2], Data := lit "\x7b\"message\":\"b\"\x7d" },
         { ReceivedFrom := [1], Data := lit "\x7b\"message\":\"c\"\x7d" }])).effects
      = [{ Message := lit "b", SenderID := [], SenderName := [] }]
    ∧ SubLoop sampleRoom ([] ++ SubEvent.next (.ok { ReceivedFrom := [1], Data := lit "x" }) :: [])
      = SubLoop sampleRoom ([] ++ []) :=
  ⟨(C2_subloop_forwards_in_order sampleRoom _).1.trans (by decide),
    (C2_subloop_forwards_in_order sampleRoom []).2 [] [] _ (by decide)⟩

/-- C6: when `Next` reports that the subscription has terminated, `SubLoop`
returns; what it does after the deliveries before is exactly: close `Inbound`,
then send the terminal log event (`suberr`, `subscription has closed`); so
`Inbound` is closed once, the terminal event is logged once, and nothing is
sent on `Inbound` afterwards, whatever events would follow. In no run at all is
`Inbound` closed twice. -/
theorem C6_subscription_terminated (cr : ChatRoom) (msgs : List Message) (post : List SubEvent) :
    (SubLoop cr (deliveries msgs
        ++ SubEvent.next (.error NextError.subscriptionTerminated) :: post)).returned = true
    ∧ (SubLoop cr (deliveries msgs
        ++ SubEvent.next (.error NextError.subscriptionTerminated) :: post)).effects
      = (SubLoop cr (deliveries msgs)).effects
        ++ [Effect.closeInbound, Effect.log subscriptionClosedLog]
    ∧ Effect.closeInbound ∉ (SubLoop cr (deliveries msgs)).effects
    ∧ Effect.log subscriptionClosedLog ∉ (SubLoop cr (deliveries msgs)).effects
    ∧ inboundOf (SubLoop cr (deliveries msgs
        ++ SubEvent.next (.error NextError.subscriptionTerminated) :: post)).effects
      = inboundOf (SubLoop cr (deliveries msgs)).effects
    ∧ ∀ evs : List SubEvent, (SubLoop cr evs).effects.count Effect.closeInbound ≤ 1 := by
  have h := SubLoop_deliveries_append cr msgs
    (SubEvent.next (.error NextError.subscriptionTerminated) :: post)
  refine ⟨?_, ?_, (SubLoop_deliveries_no_close cr msgs).1, (SubLoop_deliveries_no_close cr msgs).2,
    ?_, SubLoop_close_count cr⟩
  · rw [h]; simp [SubLoop, Run.after]
  · rw [h]; simp [SubLoop, Run.after, subscriptionClosedLog]
  · rw [h]; simp [SubLoop, Run.after, inboundOf]

/-- C7: a delivery from another peer whose payload does not deserialize makes
`SubLoop` send exactly one log event (`suberr`, `could not unmarshal JSON`) and
nothing else, and the loop goes on with the events that follow. -/
theorem C7_malformed_payload_logged (cr : ChatRoom) (pre : List Message) (m : Message)
    (rest : List SubEvent) (hfrom : m.ReceivedFrom ≠ cr.selfid)
    (herr : (Unmarshal m.Data { Message := [], SenderID := [], SenderName := [] }).2 ≠ none) :
    SubLoop cr (deliveries pre ++ SubEvent.next (.ok m) :: rest)
      = (SubLoop cr rest).after
          ((SubLoop cr (deliveries pre)).effects ++ [Effect.log unmarshalLog]) := by
  rw [SubLoop_deliveries_append]
  simp only [SubLoop, if_neg hfrom]
  split
  · simp [Run.after, unmarshalLog]
  · next h => rw [h] at herr; exact absurd rfl herr

/-- C7 at a concrete input: the payload `x` from peer `[2]`, then one more
event. -/
theorem C7_malformed_payload_logged_witness :
    SubLoop sampleRoom (deliveries [] ++ SubEvent.next (.ok { ReceivedFrom := [2], Data := lit "x" })
        :: [SubEvent.done])
      = (SubLoop sampleRoom [SubEvent.done]).after
          ((SubLoop sampleRoom (deliveries [])).effects ++ [Effect.log unmarshalLog]) :=
  C7_malformed_payload_logged sampleRoom [] { ReceivedFrom := [2], Data := lit "x" }
    [SubEvent.done] (by decide) (by decide)

/-- C8, what the code does when the scope is cancelled. Seen at the `select`,
the cancellation ends `SubLoop` with nothing closed and nothing logged. Met
inside the pending `Next`, the same cancellation ends it with `Inbound` closed
and the log event `subscription has closed` sent, exactly as a terminated
subscription does, so the two exits are not told apart. -/
theorem C8_cancelled_next_closes_inbound (cr : ChatRoom) (msgs : List Message)
    (post : List SubEvent) :
    SubLoop cr (deliveries msgs ++ SubEvent.done :: post)
      = { effects := (SubLoop cr (deliveries msgs)).effects, returned := true }
    ∧ Effect.closeInbound ∉ (SubLoop cr (deliveries msgs)).effects
    ∧ Effect.log subscriptionClosedLog ∉ (SubLoop cr (deliveries msgs)).effects
    ∧ SubLoop cr (deliveries msgs ++ SubEvent.next (.error NextError.scopeCancelled) :: post)
      = { effects := (SubLoop cr (deliveries msgs)).effects
            ++ [Effect.closeInbound, Effect.log subscriptionClosedLog], returned := true }
    ∧ SubLoop cr (deliveries msgs ++ SubEvent.next (.error NextError.scopeCancelled) :: post)
      = SubLoop cr (deliveries msgs
          ++ SubEvent.next (.error NextError.subscriptionTerminated) :: post)
    ∧ SubLoop sampleRoom [SubEvent.next (.error NextError.scopeCancelled)]
      = { effects := [Effect.closeInbound, Effect.log subscriptionClosedLog],
          returned := true } := by
  refine ⟨?_, (SubLoop_deliveries_no_close cr msgs).1, (SubLoop_deliveries_no_close cr msgs).2,
    ?_, ?_, rfl⟩
  · rw [SubLoop_deliveries_append]; simp [SubLoop, Run.after]
  · rw [SubLoop_deliveries_append]; simp [SubLoop, Run.after, subscriptionClosedLog]
  · rw [SubLoop_deliveries_append, SubLoop_deliveries_append]; simp [SubLoop]

/-! ## `JoinChatRoom` and `Exit` -/

/-- C3: when `JoinChatRoom` returns a relay, its `UserName` is `newuser` for
the empty display name and the given name otherwise, and its `RoomName` is
`lobby` for the empty room name and the given name otherwise. -/
theorem C3_join_defaults (w : World) (answers : JoinAnswers) (u r : GoString) (cr : ChatRoom)
    (h : (JoinChatRoom w answers u r).1.1 = some cr) :
    cr.UserName = (if u = [] then lit "newuser" else u)
    ∧ cr.RoomName = (if r = [] then lit "lobby" else r) := by
  obtain ⟨j, s⟩ := answers
  cases j <;> cases s <;>
    simp [JoinChatRoom, PubSub.Join, Topic.Subscribe, defaultuser, defaultroom] at h
  subst h
  exact ⟨rfl, rfl⟩

/-- C3 at a concrete input: the empty display name and the room `den`. -/
theorem C3_join_defaults_witness :
    ∃ cr, (JoinChatRoom sampleWorld { join := none, subscribe := none } [] (lit "den")).1.1
        = some cr
      ∧ cr.UserName = lit "newuser" ∧ cr.RoomName = lit "den" :=
  ⟨_, rfl, C3_join_defaults sampleWorld { join := none, subscribe := none } [] (lit "den") _ rfl⟩

/-- C4, what the code does for the empty room name: the topic joined is
`room-peerchat-`, the `RoomName` of the relay returned is `lobby`, and the
topic that room name stands for, `room-peerchat-lobby`, is not the one joined. -/
theorem C4_empty_room_joins_bare_topic (w : World) (u : GoString) :
    ∃ cr, (JoinChatRoom w { join := none, subscribe := none } u []).1 = (some cr, none)
      ∧ cr.RoomName = lit "lobby"
      ∧ cr.pstopic.name = lit "room-peerchat-"
      ∧ cr.pstopic.name ≠ lit "room-peerchat-" ++ cr.RoomName
      ∧ (JoinChatRoom w { join := none, subscribe := none } u []).2.host.PubSub.myTopics
        = lit "room-peerchat-" :: w.host.PubSub.myTopics := by
  refine ⟨_, rfl, rfl, rfl, ?_, rfl⟩
  show lit "room-peerchat-" ++ [] ≠ lit "room-peerchat-" ++ lit "lobby"
  decide

/-- C9, what the code does on a failure. When the join fails it returns the
error and no relay and the world is as before. When the join succeeds and the
subscribe fails it returns the error and no relay, makes no channel and no
scope and starts no loop, but the topic it joined stays among the topics held
on the host, so the host is not as it was before the call. -/
theorem C9_subscribe_failure_keeps_topic (w : World) (u r : GoString) (err : GoError) :
    (∀ s, JoinChatRoom w { join := some err, subscribe := s } u r = ((none, some err), w))
    ∧ (JoinChatRoom w { join := none, subscribe := some err } u r).1 = (none, some err)
    ∧ (JoinChatRoom w { join := none, subscribe := some err } u r).2.goroutines = w.goroutines
    ∧ (JoinChatRoom w { join := none, subscribe := some err } u r).2.chans = w.chans
    ∧ (JoinChatRoom w { join := none, subscribe := some err } u r).2.scopes = w.scopes
    ∧ (JoinChatRoom w { join := none, subscribe := some err } u r).2.host.PubSub.myTopics
      = (lit "room-peerchat-" ++ r) :: w.host.PubSub.myTopics
    ∧ (JoinChatRoom w { join := none, subscribe := some err } u r).2 ≠ w := by
  refine ⟨fun _ => rfl, rfl, rfl, rfl, rfl, rfl, ?_⟩
  intro h
  have h1 := congrArg (fun x => x.host.PubSub.myTopics.length) h
  simp [JoinChatRoom, PubSub.Join, Topic.Subscribe] at h1

/-- C10: a run of `Exit` that is not interrupted makes three calls, in this
order: cancel the subscription, close the topic, cancel the scope. In every
run, interrupted or not, the last call is the cancellation of the scope, it is
made once, the calls made are calls of that sequence in that order, none
twice, and the relay is as it was. -/
theorem C10_exit_release_order (cr : ChatRoom) (answers : ExitAnswers) :
    (Exit cr { subCancelPanics := false, topicClosePanics := false }).calls
      = [ReleaseCall.subCancel cr.psub, ReleaseCall.topicClose cr.pstopic,
          ReleaseCall.scopeCancel cr.psctx]
    ∧ (Exit cr { subCancelPanics := false, topicClosePanics := false }).panicked = false
    ∧ (Exit cr answers).calls.getLast? = some (ReleaseCall.scopeCancel cr.psctx)
    ∧ (Exit cr answers).calls.count (ReleaseCall.scopeCancel cr.psctx) = 1
    ∧ List.Sublist (Exit cr answers).calls
        [ReleaseCall.subCancel cr.psub, ReleaseCall.topicClose cr.pstopic,
          ReleaseCall.scopeCancel cr.psctx]
    ∧ (Exit cr answers).calls.head? = some (ReleaseCall.subCancel cr.psub)
    ∧ (Exit cr answers).cr = cr := by
  obtain ⟨a, b⟩ := answers
  cases a <;> cases b <;> simp [Exit, ExitBody, List.count_cons]

/-! ## `PubLoop` -/

theorem renamed_selfid (cr : ChatRoom) (evs : List PubEvent) :
    (renamed cr evs).selfid = cr.selfid := by
  induction evs generalizing cr with
  | nil => rfl
  | cons e es ih => cases e <;> simp [renamed, ih, ChatRoom.UpdateUser]

theorem PubLoop_append (Pretty : PeerID → GoString) (cr : ChatRoom) (pre evs : List PubEvent)
    (h : noDone pre = true) :
    PubLoop Pretty cr (pre ++ evs)
      = (PubLoop Pretty (renamed cr pre) evs).after (PubLoop Pretty cr pre).effects := by
  induction pre generalizing cr with
  | nil => simp [renamed, PubLoop, Run.after]
  | cons e es ih =>
    cases e with
    | done => simp [noDone] at h
    | updateUser n =>
      simp only [List.cons_append, PubLoop, renamed]
      exact ih _ (by simpa [noDone] using h)
    | outbound s perr =>
      have h' : noDone es = true := by simpa [noDone] using h
      simp only [List.cons_append, PubLoop, renamed, Marshal]
      cases perr <;> simp [ih cr h', Run.after]

theorem PubLoop_outbound (Pretty : PeerID → GoString) (cr : ChatRoom) (s : GoString)
    (perr : Option GoError) (rest : List PubEvent) (payload : GoString)
    (h : Marshal { Message := s, SenderID := Pretty cr.selfid, SenderName := cr.UserName }
      = .ok payload) :
    publishedOf (PubLoop Pretty cr (PubEvent.outbound s perr :: rest)).effects
      = payload :: publishedOf (PubLoop Pretty cr rest).effects := by
  simp only [PubLoop, h]
  cases perr <;> simp [Run.after, publishedOf]

theorem publishedOf_append (a b : List Effect) :
    publishedOf (a ++ b) = publishedOf a ++ publishedOf b := by
  simp [publishedOf]

/-- C1, the claim fails: the outbound string is the one byte `0x80`, not valid
UTF-8. What `PubLoop` hands to `Publish` is the envelope with `\ufffd` as the
message, and a peer that deserializes it gets the three bytes of U+FFFD, not
the string sent. -/
theorem C1_invalid_message_not_received :
    publishedOf (PubLoop (fun _ => lit "Qm") sampleRoom [PubEvent.outbound [0x80] none]).effects
      = [lit "\x7b\"message\":\"\\ufffd\",\"senderid\":\"Qm\",\"sendername\":\"al\"\x7d"]
    ∧ Unmarshal (lit "\x7b\"message\":\"\\ufffd\",\"senderid\":\"Qm\",\"sendername\":\"al\"\x7d")
        { Message := [], SenderID := [], SenderName := [] }
      = ({ Message := [0xEF, 0xBF, 0xBD], SenderID := lit "Qm", SenderName := lit "al" }, none)
    ∧ ([0xEF, 0xBF, 0xBD] : GoString) ≠ [0x80] := by
  decide

/-- C1 as amended: for every outbound string `s` that `PubLoop` takes after
events `pre` that hold no cancellation, the payload handed to `Publish` at that
point is the JSON object of the three fields `message` = `s`, `senderid` =
`Pretty` of the identity captured at construction and `sendername` = the
display name current at that point; and when the three strings are valid
UTF-8, a peer that deserializes the payload gets exactly these three values
with no error. -/
theorem C1_publoop_payload (Pretty : PeerID → GoString) (cr : ChatRoom)
    (pre : List PubEvent) (s : GoString) (perr : Option GoError) (rest : List PubEvent)
    (hpre : noDone pre = true) :
    ∃ payload : GoString,
      Marshal { Message := s, SenderID := Pretty cr.selfid, SenderName := (renamed cr pre).UserName }
        = .ok payload
      ∧ payload = lit "\x7b\"message\":" ++ encodeString s
          ++ lit ",\"senderid\":" ++ encodeString (Pretty cr.selfid)
          ++ lit ",\"sendername\":" ++ encodeString (renamed cr pre).UserName ++ lit "\x7d"
      ∧ publishedOf (PubLoop Pretty cr (pre ++ PubEvent.outbound s perr :: rest)).effects
        = publishedOf (PubLoop Pretty cr pre).effects
          ++ payload :: publishedOf (PubLoop Pretty (renamed cr pre) rest).effects
      ∧ (ValidString s = true → ValidString (Pretty cr.selfid) = true
          → ValidString (renamed cr pre).UserName = true
          → Unmarshal payload { Message := [], SenderID := [], SenderName := [] }
            = ({ Message := s, SenderID := Pretty cr.selfid,
                 SenderName := (renamed cr pre).UserName }, none)) := by
  refine ⟨_, rfl, rfl, ?_, ?_⟩
  · rw [PubLoop_append Pretty cr pre _ hpre]
    simp only [Run.after, publishedOf_append]
    rw [PubLoop_outbound Pretty (renamed cr pre) s perr rest _
      (by rw [renamed_selfid]; rfl)]
  · intro h1 h2 h3
    exact Unmarshal_Marshal _ _ rfl h1 h2 h3

/-- C1 as amended, at a concrete input: after a rename to `bo`, the string `hi`
is published under the name `bo` and is read back as sent. -/
theorem C1_publoop_payload_witness :
    ∃ payload : GoString,
      publishedOf (PubLoop (fun _ => lit "Qm") sampleRoom
        ([PubEvent.updateUser (lit "bo")] ++ PubEvent.outbound (lit "hi") none :: [])).effects
        = publishedOf (PubLoop (fun _ => lit "Qm") sampleRoom
            [PubEvent.updateUser (lit "bo")]).effects
          ++ payload :: publishedOf (PubLoop (fun _ => lit "Qm")
              (renamed sampleRoom [PubEvent.updateUser (lit "bo")]) []).effects
      ∧ Unmarshal payload { Message := [], SenderID := [], SenderName := [] }
        = ({ Message := lit "hi", SenderID := lit "Qm", SenderName := lit "bo" }, none) :=
  (C1_publoop_payload (fun _ => lit "Qm") sampleRoom [PubEvent.updateUser (lit "bo")] (lit "hi")
    none [] (by decide)).imp
    fun _ h => ⟨h.2.2.1, h.2.2.2 (by decide) (by decide) (by decide)⟩

/-! ## The envelope -/

/-- C5, the claim fails: the message is the one byte `0xFF`, which is no
control character. `Marshal` returns bytes without error, `Unmarshal` of those
bytes returns no error, and the message read back is the three bytes of
U+FFFD, not the byte `0xFF`. -/
theorem C5_invalid_utf8_changes :
    (∀ b ∈ ([0xFF] : GoString), 0x20 ≤ b ∧ b ≠ 0x7F)
    ∧ ∃ (data : GoString) (back : chatmessage),
      Marshal { Message := [0xFF], SenderID := [], SenderName := [] } = .ok data
      ∧ Unmarshal data { Message := [], SenderID := [], SenderName := [] } = (back, none)
      ∧ back = { Message := [0xEF, 0xBF, 0xBD], SenderID := [], SenderName := [] }
      ∧ back ≠ { Message := [0xFF], SenderID := [], SenderName := [] } :=
  ⟨by decide, _, _, rfl, rfl, rfl, by decide⟩

/-- C5 as amended: for every envelope whose three fields are valid UTF-8
strings, with or without control characters, the empty message included,
`Marshal` returns bytes without error, and `Unmarshal` of those bytes into an
empty envelope returns no error and the envelope with the same three field
values. -/
theorem C5_envelope_round_trip (m : chatmessage) (h1 : ValidString m.Message = true)
    (h2 : ValidString m.SenderID = true) (h3 : ValidString m.SenderName = true) :
    ∃ data : GoString, Marshal m = .ok data
      ∧ Unmarshal data { Message := [], SenderID := [], SenderName := [] } = (m, none) :=
  ⟨_, rfl, Unmarshal_Marshal m _ rfl h1 h2 h3⟩

/-- C5 as amended, at a concrete input: the empty message, and a name with a
quote, a backslash and a two-byte rune. -/
theorem C5_envelope_round_trip_witness :
    ∃ data : GoString,
      Marshal { Message := [], SenderID := lit "Qm", SenderName := [0x22, 0x5C, 0xC3, 0xA9] }
        = .ok data
      ∧ Unmarshal data { Message := [], SenderID := [], SenderName := [] }
        = ({ Message := [], SenderID := lit "Qm", SenderName := [0x22, 0x5C, 0xC3, 0xA9] }, none) :=
  C5_envelope_round_trip ⟨[], lit "Qm", [0x22, 0x5C, 0xC3, 0xA9]⟩ (by decide) (by decide)
    (by decide)

/-! ## Further properties of the loops and of `JoinChatRoom` -/

theorem PubLoop_no_marshal_log (Pretty : PeerID → GoString) (cr : ChatRoom)
    (evs : List PubEvent) :
    Effect.log { logprefix := lit "puberr", logmsg := lit "could not marshal JSON" }
      ∉ (PubLoop Pretty cr evs).effects := by
  induction evs generalizing cr with
  | nil => simp [PubLoop]
  | cons e es ih =>
    cases e with
    | done => simp [PubLoop]
    | updateUser n => simpa [PubLoop] using ih _
    | outbound s perr =>
      simp only [PubLoop, Marshal]
      cases perr with
      | none => simpa [Run.after] using ih cr
      | some err =>
        simp only [Run.after, List.cons_append, List.nil_append, List.mem_cons, not_or]
        refine ⟨by simp, ?_, ih cr⟩
        simp only [Effect.log.injEq, chatlog.mk.injEq, not_and]
        intro _; decide

/-- X1: a string whose publish fails is handed to `Publish` all the same, is
followed by exactly one log event (`puberr`, `could not publish to topic`), and
the loop goes on; a string whose publish succeeds is followed by no log event;
and no run of `PubLoop` logs a marshalling failure. -/
theorem X1_publish_failure_logged (Pretty : PeerID → GoString) (cr : ChatRoom) (s : GoString)
    (rest : List PubEvent) :
    (∀ err : GoError, ∃ payload,
      Marshal { Message := s, SenderID := Pretty cr.selfid, SenderName := cr.UserName }
        = .ok payload
      ∧ PubLoop Pretty cr (PubEvent.outbound s (some err) :: rest)
        = (PubLoop Pretty cr rest).after
            [Effect.publish payload,
              Effect.log { logprefix := lit "puberr", logmsg := lit "could not publish to topic" }])
    ∧ (∃ payload,
      Marshal { Message := s, SenderID := Pretty cr.selfid, SenderName := cr.UserName }
        = .ok payload
      ∧ PubLoop Pretty cr (PubEvent.outbound s none :: rest)
        = (PubLoop Pretty cr rest).after [Effect.publish payload])
    ∧ ∀ evs : List PubEvent,
      Effect.log { logprefix := lit "puberr", logmsg := lit "could not marshal JSON" }
        ∉ (PubLoop Pretty cr evs).effects :=
  ⟨fun _ => ⟨_, rfl, rfl⟩, ⟨_, rfl, rfl⟩, PubLoop_no_marshal_log Pretty cr⟩

theorem PubLoop_returned (Pretty : PeerID → GoString) (cr : ChatRoom) (evs : List PubEvent) :
    (PubLoop Pretty cr evs).returned = !noDone evs := by
  induction evs generalizing cr with
  | nil => rfl
  | cons e es ih =>
    cases e with
    | done => rfl
    | updateUser n => simpa [PubLoop, noDone] using ih _
    | outbound s perr =>
      simp only [PubLoop, Marshal, noDone]
      cases perr <;> simpa [Run.after] using ih cr

/-- X2: `PubLoop` returns exactly when a cancellation is among its events, and
from the cancellation on it publishes and logs nothing more, whatever waits on
`Outbound`. -/
theorem X2_publoop_ends_on_cancel (Pretty : PeerID → GoString) (cr : ChatRoom)
    (evs : List PubEvent) :
    (PubLoop Pretty cr evs).returned = !noDone evs
    ∧ ∀ pre post : List PubEvent, noDone pre = true →
        PubLoop Pretty cr (pre ++ PubEvent.done :: post)
          = { effects := (PubLoop Pretty cr pre).effects, returned := true } := by
  refine ⟨PubLoop_returned Pretty cr evs, fun pre post h => ?_⟩
  rw [PubLoop_append Pretty cr pre _ h]
  simp [PubLoop, Run.after]

/-- X2 at a concrete input: a string, the cancellation, a second string. -/
theorem X2_publoop_ends_on_cancel_witness :
    PubLoop (fun _ => lit "Qm") sampleRoom
        ([PubEvent.outbound (lit "a") none] ++ PubEvent.done :: [PubEvent.outbound (lit "b") none])
      = { effects := (PubLoop (fun _ => lit "Qm") sampleRoom
            [PubEvent.outbound (lit "a") none]).effects, returned := true } :=
  (X2_publoop_ends_on_cancel (fun _ => lit "Qm") sampleRoom []).2
    [PubEvent.outbound (lit "a") none] [PubEvent.outbound (lit "b") none] (by decide)

/-- X3: when both transport calls succeed, `JoinChatRoom` returns a relay and
no error; the relay holds the identity of the host, the topic joined and the
subscription opened on it; three channels and one scope were made; and the two
loops were started on that relay, `SubLoop` first. -/
theorem X3_join_success (w : World) (u r : GoString) :
    ∃ cr, JoinChatRoom w { join := none, subscribe := none } u r
        = ((some cr, none),
            { host := { w.host with PubSub :=
                { myTopics := (lit "room-peerchat-" ++ r) :: w.host.PubSub.myTopics
                  mySubs := (lit "room-peerchat-" ++ r) :: w.host.PubSub.mySubs } }
              chans := w.chans + 3
              scopes := w.scopes + 1
              goroutines := w.goroutines ++ [(Loop.SubLoop, cr), (Loop.PubLoop, cr)] })
      ∧ cr.selfid = w.host.HostID
      ∧ cr.pstopic = { name := lit "room-peerchat-" ++ r }
      ∧ cr.psub = { topic := lit "room-peerchat-" ++ r }
      ∧ cr.Inbound ≠ cr.Outbound ∧ cr.Inbound ≠ cr.Logs ∧ cr.Outbound ≠ cr.Logs := by
  refine ⟨_, rfl, rfl, rfl, rfl, ?_, ?_, ?_⟩ <;> simp

/-- X4: for every envelope, whatever bytes its three strings hold, `Marshal`
returns bytes and no error, and `Unmarshal` of those bytes into an empty
envelope returns no error and the envelope of the three strings coerced to
valid UTF-8; a valid UTF-8 string is its own coercion, and the lone byte FF is
coerced to the three bytes of U+FFFD. -/
theorem X4_round_trip_coerces (m : chatmessage) :
    (∃ data : GoString, Marshal m = .ok data
      ∧ Unmarshal data { Message := [], SenderID := [], SenderName := [] }
        = ({ Message := coerced m.Message, SenderID := coerced m.SenderID,
             SenderName := coerced m.SenderName }, none))
    ∧ (∀ s : GoString, ValidString s = true → coerced s = s)
    ∧ coerced [0xFF] = [0xEF, 0xBF, 0xBD] :=
  ⟨⟨_, rfl, Unmarshal_Marshal_coerced m _ rfl⟩, coerced_valid, by decide⟩

end PeerChat
